import Mathlib

/-!
Shallow embedding of the `vscode-uri-rs` core (src/uri.rs and src/utils.rs)
and proofs about the claims of its specification.

Strings are modelled as `List Char`.  Rust indexes `&str` by bytes; every
place where the source slices a string, the sliced prefix consists of ASCII
characters on the inputs the function actually receives, so byte indices and
character indices coincide and the embedding works with character lists
throughout (noted again at the definitions concerned).
-/

namespace VUri

/-! ### Character classes (uri.rs uses numeric `CharCode` comparisons) -/

def isAsciiLowerAlpha (c : Char) : Prop := 0x61 ≤ c.toNat ∧ c.toNat ≤ 0x7A

def isAsciiUpperAlpha (c : Char) : Prop := 0x41 ≤ c.toNat ∧ c.toNat ≤ 0x5A

def isAsciiAlpha (c : Char) : Prop := isAsciiLowerAlpha c ∨ isAsciiUpperAlpha c

def isAsciiDigit (c : Char) : Prop := 0x30 ≤ c.toNat ∧ c.toNat ≤ 0x39

def isAsciiAlnum (c : Char) : Prop := isAsciiAlpha c ∨ isAsciiDigit c

instance (c : Char) : Decidable (isAsciiLowerAlpha c) := by unfold isAsciiLowerAlpha; infer_instance

instance (c : Char) : Decidable (isAsciiUpperAlpha c) := by unfold isAsciiUpperAlpha; infer_instance

instance (c : Char) : Decidable (isAsciiAlpha c) := by unfold isAsciiAlpha; infer_instance

instance (c : Char) : Decidable (isAsciiDigit c) := by unfold isAsciiDigit; infer_instance

instance (c : Char) : Decidable (isAsciiAlnum c) := by unfold isAsciiAlnum; infer_instance

/-- ASCII lower-casing of a single character; faithful to `char::to_lowercase`
on the ASCII characters this code path ever examines. -/
def lowerChar (c : Char) : Char :=
  if isAsciiUpperAlpha c then Char.ofNat (c.toNat + 32) else c

/-- `str::to_lowercase`, character-wise. -/
def lowerStr (s : List Char) : List Char := s.map lowerChar

/-! ### Generic list-of-char helpers mirroring the Rust string operations -/

/-- Index of the first occurrence of `ch` (Rust `str::find` on a char). -/
def firstIdxOf (ch : Char) : List Char → Option Nat
  | [] => none
  | c :: rest => if c = ch then some 0 else (firstIdxOf ch rest).map (· + 1)

/-- Index of the last occurrence of `ch` (Rust `str::rfind` on a char). -/
def rIdxOf (ch : Char) : List Char → Option Nat
  | [] => none
  | c :: rest =>
    match rIdxOf ch rest with
    | some i => some (i + 1)
    | none => if c = ch then some 0 else none

/-- Rust `str::replace(old, new)` for a single-char pattern. -/
def replaceChar (old : Char) (new : List Char) (s : List Char) : List Char :=
  (s.map fun c => if c = old then new else [c]).flatten

/-- Rust `str::split('/')`: `""` splits to `[""]`, `"/"` to `["",""]`. -/
def splitSlash : List Char → List (List Char)
  | [] => [[]]
  | c :: rest =>
    if c = '/' then [] :: splitSlash rest
    else
      match splitSlash rest with
      | s :: ss => (c :: s) :: ss
      | [] => [[c]]

/-- Rust `Vec::<&str>::join("/")`. -/
def joinSegs (segs : List (List Char)) : List Char := List.intercalate ['/'] segs

/-! ### Percent codec -/

def hexDigitUpper (n : Nat) : Char :=
  if n < 10 then Char.ofNat (0x30 + n) else Char.ofNat (0x41 + (n - 10))

/-- A byte rendered as `%XX` with upper-case hex digits. -/
def byteHex (b : Nat) : List Char := ['%', hexDigitUpper (b / 16), hexDigitUpper (b % 16)]

/-- UTF-8 encoding of one character, as a list of byte values. -/
def utf8EncodeChar (c : Char) : List Nat :=
  let n := c.toNat
  if n < 0x80 then [n]
  else if n < 0x800 then [0xC0 + n / 0x40, 0x80 + n % 0x40]
  else if n < 0x10000 then [0xE0 + n / 0x1000, 0x80 + (n / 0x40) % 0x40, 0x80 + n % 0x40]
  else [0xF0 + n / 0x40000, 0x80 + (n / 0x1000) % 0x40, 0x80 + (n / 0x40) % 0x40, 0x80 + n % 0x40]

/-- UTF-8 bytes of a string. -/
def strBytes (s : List Char) : List Nat := (s.map utf8EncodeChar).flatten

def isUtf8Cont (b : Nat) : Prop := 0x80 ≤ b ∧ b ≤ 0xBF

instance (b : Nat) : Decidable (isUtf8Cont b) := by unfold isUtf8Cont; infer_instance

/-- Strict UTF-8 validation/decoding of a byte list, as done by Rust's
`str::from_utf8` (rejects overlong forms, surrogates and values above
U+10FFFF).  Returns `none` on any invalid sequence. -/
def utf8Decode : List Nat → Option (List Char)
  | [] => some []
  | b :: rest =>
    if b < 0x80 then (utf8Decode rest).map (Char.ofNat b :: ·)
    else if 0xC2 ≤ b ∧ b ≤ 0xDF then
      match rest with
      | b2 :: rest2 =>
        if isUtf8Cont b2 then
          (utf8Decode rest2).map (Char.ofNat ((b - 0xC0) * 0x40 + (b2 - 0x80)) :: ·)
        else none
      | [] => none
    else if 0xE0 ≤ b ∧ b ≤ 0xEF then
      match rest with
      | b2 :: b3 :: rest3 =>
        if ((b = 0xE0 ∧ 0xA0 ≤ b2 ∧ b2 ≤ 0xBF) ∨
            ((0xE1 ≤ b ∧ b ≤ 0xEC) ∧ isUtf8Cont b2) ∨
            (b = 0xED ∧ 0x80 ≤ b2 ∧ b2 ≤ 0x9F) ∨
            ((0xEE ≤ b ∧ b ≤ 0xEF) ∧ isUtf8Cont b2)) ∧ isUtf8Cont b3 then
          (utf8Decode rest3).map
            (Char.ofNat ((b - 0xE0) * 0x1000 + (b2 - 0x80) * 0x40 + (b3 - 0x80)) :: ·)
        else none
      | _ => none
    else if 0xF0 ≤ b ∧ b ≤ 0xF4 then
      match rest with
      | b2 :: b3 :: b4 :: rest4 =>
        if ((b = 0xF0 ∧ 0x90 ≤ b2 ∧ b2 ≤ 0xBF) ∨
            ((0xF1 ≤ b ∧ b ≤ 0xF3) ∧ isUtf8Cont b2) ∨
            (b = 0xF4 ∧ 0x80 ≤ b2 ∧ b2 ≤ 0x8F)) ∧ isUtf8Cont b3 ∧ isUtf8Cont b4 then
          (utf8Decode rest4).map
            (Char.ofNat ((b - 0xF0) * 0x40000 + (b2 - 0x80) * 0x1000 +
              (b3 - 0x80) * 0x40 + (b4 - 0x80)) :: ·)
        else none
      | _ => none
    else none

def isHexDigitByte (b : Nat) : Prop :=
  (0x30 ≤ b ∧ b ≤ 0x39) ∨ (0x41 ≤ b ∧ b ≤ 0x46) ∨ (0x61 ≤ b ∧ b ≤ 0x66)

instance (b : Nat) : Decidable (isHexDigitByte b) := by unfold isHexDigitByte; infer_instance

def hexVal (b : Nat) : Nat :=
  if b ≤ 0x39 then b - 0x30 else if b ≤ 0x46 then b - 0x41 + 10 else b - 0x61 + 10

/-- The `percent_encoding` crate's `percent_decode`: each `%hh` with two hex
digits becomes a byte; a `%` not followed by two hex digits is passed through
and scanning continues with the characters after the `%`. -/
def pctDecodeBytes : List Nat → List Nat
  | [] => []
  | b :: h1 :: h2 :: rest2 =>
    if b = 0x25 ∧ isHexDigitByte h1 ∧ isHexDigitByte h2 then
      (hexVal h1 * 16 + hexVal h2) :: pctDecodeBytes rest2
    else b :: pctDecodeBytes (h1 :: h2 :: rest2)
  | b :: rest => b :: pctDecodeBytes rest

/-- uri.rs `decode_uri_component_graceful`.  The Rust source slices the first
three bytes; every string this function receives is a run of `%xx` escapes,
which is ASCII, where byte and character slicing coincide. -/
def decodeUriComponentGraceful (s : List Char) : List Char :=
  if h : s.length < 3 then s
  else
    match utf8Decode (pctDecodeBytes (strBytes s)) with
    | some decoded => decoded
    | none => s.take 3 ++ decodeUriComponentGraceful (s.drop 3)
termination_by s.length
decreasing_by simp_wf; omega

/-- Length of the maximal prefix matching `(%[0-9A-Za-z][0-9A-Za-z])+`
(the uri.rs `ENCODED_AS_HEX` pattern) starting at the head, 0 if none. -/
def runLen : List Char → Nat
  | '%' :: a :: b :: rest =>
    if isAsciiAlnum a ∧ isAsciiAlnum b then 3 + runLen rest else 0
  | _ => 0

/-- Whether `ENCODED_AS_HEX.is_match` holds: some position starts a run. -/
def hasRun : List Char → Bool
  | [] => false
  | c :: rest => (0 < runLen (c :: rest) : Bool) || hasRun rest

/-- The `find_iter` loop of uri.rs `percent_decode`: copy text verbatim,
and pass each maximal `(%xx)+` run through the graceful decoder. -/
def pdScan : List Char → List Char
  | [] => []
  | c :: rest =>
    let n := runLen (c :: rest)
    if h : n = 0 then c :: pdScan rest
    else
      decodeUriComponentGraceful ((c :: rest).take n) ++ pdScan ((c :: rest).drop n)
termination_by s => s.length
decreasing_by
  all_goals simp_wf
  all_goals rcases Nat.eq_zero_or_pos (runLen (c :: rest)) with h0 | h0
  all_goals first
    | exact absurd h0 h
    | omega

/-- uri.rs `percent_decode`: unchanged when the pattern does not match. -/
def percentDecode (s : List Char) : List Char :=
  if hasRun s then pdScan s else s

/-! ### The URI value, errors, validation and construction (uri.rs) -/

structure URI where
  scheme : List Char
  authority : List Char
  path : List Char
  query : List Char
  fragment : List Char
deriving DecidableEq, Repr

inductive UriError where
  | missingScheme (scheme authority path query fragment : List Char)
  | illegalSchemeCharacters
  | invalidAuthorityPath
  | invalidPathWithoutAuthority
deriving DecidableEq, Repr

/-- The candidate field values an error value records, if any.  Only
`MissingScheme` has payload fields in the source enum. -/
def UriError.carriedFields :
    UriError → Option (List Char × List Char × List Char × List Char × List Char)
  | .missingScheme s a p q f => some (s, a, p, q, f)
  | _ => none

/-- uri.rs `SCHEME_PATTERN`: `^[a-zA-Z][a-zA-Z0-9+.-]*$`. -/
def schemePattern : List Char → Prop
  | [] => False
  | c :: rest =>
    isAsciiAlpha c ∧ ∀ d ∈ rest, isAsciiAlnum d ∨ d = '+' ∨ d = '.' ∨ d = '-'

instance (s : List Char) : Decidable (schemePattern s) := by
  unfold schemePattern; cases s <;> infer_instance

/-- The path starts with two slashes (`DOUBLE_SLASH_START`). -/
def startsDD (s : List Char) : Prop := s.take 2 = ['/', '/']

instance (s : List Char) : Decidable (startsDD s) := by
  unfold startsDD; infer_instance

/-- uri.rs `validate_uri`. -/
def validateUri (u : URI) (strict : Bool) : Except UriError Unit :=
  if u.scheme = [] ∧ strict then
    .error (.missingScheme u.scheme u.authority u.path u.query u.fragment)
  else if u.scheme ≠ [] ∧ ¬ schemePattern (lowerStr u.scheme) then
    .error .illegalSchemeCharacters
  else if u.path ≠ [] ∧ u.authority ≠ [] ∧ ¬ u.path.head? = some '/' then
    .error .invalidAuthorityPath
  else if u.path ≠ [] ∧ u.authority = [] ∧ startsDD u.path then
    .error .invalidPathWithoutAuthority
  else
    .ok ()

/-- uri.rs `scheme_fix`. -/
def schemeFix (scheme : List Char) (strict : Bool) : List Char :=
  if scheme = [] ∧ ¬ strict then "file".toList else scheme

/-- uri.rs `reference_resolution`. -/
def referenceResolution (scheme path : List Char) : List Char :=
  if scheme = "https".toList ∨ scheme = "http".toList ∨ scheme = "file".toList then
    if path = [] then "/".toList
    else if ¬ path.head? = some '/' then '/' :: path
    else path
  else path

/-- uri.rs `URI::new` (always called with `strict = false`). -/
def URI.new (scheme authority path query fragment : List Char) : Except UriError URI :=
  let scheme := schemeFix scheme false
  let path := referenceResolution scheme path
  let u : URI := ⟨scheme, authority, path, query, fragment⟩
  (validateUri u false).map fun _ => u

/-- The scheme capture of `URI_REGEX`: the group `([^:/?#]+?):` matches
exactly when the first of `:` `/` `?` `#` in the input is a `:` at a
position of at least 1; the lazy repetition then captures the text before
that first `:`. -/
def splitScheme (v : List Char) : List Char × List Char :=
  let pre := v.takeWhile fun c => ¬(c = ':' ∨ c = '/' ∨ c = '?' ∨ c = '#')
  match v.drop pre.length with
  | ':' :: rest => if pre = [] then ([], v) else (pre, rest)
  | _ => ([], v)

/-- The authority capture: after `//`, the greedy `[^/?#]*`. -/
def splitAuthority (v : List Char) : List Char × List Char :=
  match v with
  | '/' :: '/' :: rest =>
    (rest.takeWhile fun c => ¬(c = '/' ∨ c = '?' ∨ c = '#'),
     rest.dropWhile fun c => ¬(c = '/' ∨ c = '?' ∨ c = '#'))
  | _ => ([], v)

/-- uri.rs `URI::parse` / `parse_with_strict` (the `strict` flag is ignored
by the source).  `URI_REGEX` is total — every input matches, with each of
scheme/authority/query/fragment optionally absent — so the regex capture
extraction is embedded as the equivalent sequential splitter. -/
def URI.parse (value : List Char) : Except UriError URI :=
  if value = [] then URI.new [] [] [] [] []
  else
    let (scheme, r1) := splitScheme value
    let (authority, r2) := splitAuthority r1
    let path := r2.takeWhile fun c => ¬(c = '?' ∨ c = '#')
    let r3 := r2.dropWhile fun c => ¬(c = '?' ∨ c = '#')
    let (query, r4) :=
      match r3 with
      | '?' :: rest => (rest.takeWhile (· ≠ '#'), rest.dropWhile (· ≠ '#'))
      | _ => ([], r3)
    let fragment :=
      match r4 with
      | '#' :: rest => rest
      | _ => []
    URI.new scheme (percentDecode authority) (percentDecode path)
      (percentDecode query) (percentDecode fragment)

/-- The authority/path split of `URI::file` (the `starts_with("//")` UNC
branch of the source; anything else keeps an empty authority).  Byte
indices in the source (`path_str[2..]`, `path_str[2..idx]`) fall on
character boundaries for the inputs concerned, so character indexing is
used. -/
def fileSplit (p : List Char) : List Char × List Char :=
  match p with
  | '/' :: '/' :: rest =>
    let idx := match firstIdxOf '/' rest with
      | some i => i + 2
      | none => p.length
    if idx = 2 then (rest, "/".toList)
    else
      (rest.take (idx - 2),
       if idx < p.length then p.drop idx else "/".toList)
  | _ => ([], p)

/-- uri.rs `URI::file`.  The platform flag (`is_windows()`) is passed
explicitly as `win`. -/
def URI.file (win : Bool) (p : List Char) : Except UriError URI :=
  let p := if win then replaceChar '\\' ['/'] p else p
  let ap := fileSplit p
  let authority := ap.1
  let p := ap.2
  let p :=
    if 2 ≤ p.length ∧ p.get? 1 = some ':' then
      match p with
      | c :: _ :: rest => '/' :: lowerChar c :: ':' :: rest
      | _ => p
    else p
  URI.new "file".toList authority p [] []

structure URIChange where
  scheme : Option (List Char) := none
  authority : Option (List Char) := none
  path : Option (List Char) := none
  query : Option (List Char) := none
  fragment : Option (List Char) := none
deriving Repr

/-- uri.rs `URI::with`. -/
def URI.with (u : URI) (change : URIChange) : Except UriError URI :=
  let scheme := change.scheme.getD u.scheme
  let authority := change.authority.getD u.authority
  let path := change.path.getD u.path
  let query := change.query.getD u.query
  let fragment := change.fragment.getD u.fragment
  if scheme = u.scheme ∧ authority = u.authority ∧ path = u.path ∧
      query = u.query ∧ fragment = u.fragment then
    .ok u
  else
    URI.new scheme authority path query fragment

structure URIComponents where
  scheme : List Char
  authority : List Char
  path : List Char
  query : List Char
  fragment : List Char
deriving DecidableEq, Repr

/-- uri.rs `URI::from`. -/
def URI.fromComponents (c : URIComponents) : Except UriError URI :=
  URI.new c.scheme c.authority c.path c.query c.fragment

/-! ### The formatter (uri.rs `as_formatted` and the encoders) -/

/-- uri.rs `ENCODE_TABLE` (fixed escapes for reserved punctuation). -/
def encodeTable (n : Nat) : Option (List Char) :=
  if n = 0x3A then some "%3A".toList
  else if n = 0x2F then some "%2F".toList
  else if n = 0x3F then some "%3F".toList
  else if n = 0x23 then some "%23".toList
  else if n = 0x5B then some "%5B".toList
  else if n = 0x5D then some "%5D".toList
  else if n = 0x40 then some "%40".toList
  else if n = 0x21 then some "%21".toList
  else if n = 0x24 then some "%24".toList
  else if n = 0x26 then some "%26".toList
  else if n = 0x27 then some "%27".toList
  else if n = 0x28 then some "%28".toList
  else if n = 0x29 then some "%29".toList
  else if n = 0x2A then some "%2A".toList
  else if n = 0x2B then some "%2B".toList
  else if n = 0x2C then some "%2C".toList
  else if n = 0x3B then some "%3B".toList
  else if n = 0x3D then some "%3D".toList
  else if n = 0x25 then some "%25".toList
  else if n = 0x20 then some "%20".toList
  else none

/-- Whether a character is left unescaped by `encode_uri_component_fast`
(RFC 3986 unreserved, plus `/` in paths and `[` `]` `:` in authorities). -/
def isUnreservedFor (isPath isAuthority : Bool) (c : Char) : Prop :=
  isAsciiAlnum c ∨ c = '-' ∨ c = '.' ∨ c = '_' ∨ c = '~' ∨
    (isPath ∧ c = '/') ∨
    (isAuthority ∧ (c = '[' ∨ c = ']' ∨ c = ':'))

instance (isPath isAuthority : Bool) (c : Char) :
    Decidable (isUnreservedFor isPath isAuthority c) := by
  unfold isUnreservedFor; infer_instance

/-- The per-character output of uri.rs `encode_uri_component_fast`.  The
source buffers runs of to-be-natively-encoded characters and feeds them to
`percent_encode(..., CONTROLS)` at once; since that encoder works byte by
byte (and these runs are ASCII), the output equals the concatenation of the
per-character translations embedded here. -/
def encChar (isPath isAuthority : Bool) (c : Char) : List Char :=
  let n := c.toNat
  if isUnreservedFor isPath isAuthority c then [c]
  else if isPath ∧ n = 0x5C then "%5C".toList
  else
    match encodeTable n with
    | some esc => esc
    | none =>
      if 127 < n then (utf8EncodeChar c).map byteHex |>.flatten
      else if n < 0x20 ∨ n = 0x7F then byteHex n
      else [c]

/-- uri.rs `encode_uri_component_fast`. -/
def encodeFast (s : List Char) (isPath isAuthority : Bool) : List Char :=
  (s.map (encChar isPath isAuthority)).flatten

/-- uri.rs `encode_uri_component_minimal`: escapes only `#` and `?`. -/
def encodeMinimal (s : List Char) : List Char :=
  (s.map fun c =>
    if c = '#' then "%23".toList
    else if c = '?' then "%3F".toList
    else [c]).flatten

/-- The `encoder` closure of `as_formatted`: in full-encoding mode on a
Windows platform, backslashes in paths are pre-replaced by `%5C`. -/
def fmtEncoder (win skipEncoding : Bool) (s : List Char) (isPath isAuthority : Bool) :
    List Char :=
  if skipEncoding then encodeMinimal s
  else if isPath ∧ win then encodeFast (replaceChar '\\' "%5C".toList s) isPath isAuthority
  else encodeFast s isPath isAuthority

/-- The authority rendering of `as_formatted`: user-info (before the first
`@`) is split at its last `:` and encoded case-sensitively; the rest is
lower-cased and split at its last `:`, the part from that `:` on being
emitted verbatim. -/
def authoritySection (win skipEncoding : Bool) (authority0 : List Char) : List Char :=
  let host (a : List Char) : List Char :=
    let a := lowerStr a
    match rIdxOf ':' a with
    | some i => fmtEncoder win skipEncoding (a.take i) false true ++ a.drop i
    | none => fmtEncoder win skipEncoding a false true
  match firstIdxOf '@' authority0 with
  | some i =>
    let userinfo := authority0.take i
    let rest := authority0.drop (i + 1)
    let userPart :=
      match rIdxOf ':' userinfo with
      | some j =>
        fmtEncoder win skipEncoding (userinfo.take j) false false ++ [':'] ++
          fmtEncoder win skipEncoding (userinfo.drop (j + 1)) false true
      | none => fmtEncoder win skipEncoding userinfo false false
    userPart ++ ['@'] ++ host rest
  | none => host authority0

/-- The drive-letter case-folding of `as_formatted`: `/X:...` or `X:...`
with an upper-case ASCII letter is folded to lower case. -/
def driveFold (path : List Char) : List Char :=
  if 3 ≤ path.length then
    match path with
    | '/' :: second :: ':' :: rest =>
      if isAsciiUpperAlpha second then '/' :: Char.ofNat (second.toNat + 32) :: ':' :: rest
      else path
    | _ => path
  else if 2 ≤ path.length then
    match path with
    | first :: ':' :: rest =>
      if isAsciiUpperAlpha first then Char.ofNat (first.toNat + 32) :: ':' :: rest
      else path
    | _ => path
  else path

/-- The path rendering of `as_formatted` (for a non-empty path). -/
def pathSection (win skipEncoding : Bool) (path : List Char) : List Char :=
  fmtEncoder win skipEncoding (driveFold path) true false

/-- The query rendering of `as_formatted`: in skip-encoding mode only `#`
is escaped; otherwise the query goes through the full encoder. -/
def querySection (win skipEncoding : Bool) (query : List Char) : List Char :=
  if query = [] then []
  else
    '?' :: (if skipEncoding then
        (query.map fun c => if c = '#' then "%23".toList else [c]).flatten
      else fmtEncoder win skipEncoding query false false)

/-- The fragment rendering of `as_formatted`: emitted raw in skip-encoding
mode, otherwise through `encode_uri_component_fast` directly. -/
def fragmentSection (skipEncoding : Bool) (fragment : List Char) : List Char :=
  if fragment = [] then []
  else '#' :: (if skipEncoding then fragment else encodeFast fragment false false)

/-- uri.rs `as_formatted` (`URI::to_string`), with the platform flag
explicit. -/
def asFormatted (win : Bool) (u : URI) (skipEncoding : Bool) : List Char :=
  (if u.scheme ≠ [] then u.scheme ++ [':'] else []) ++
  (if u.authority ≠ [] ∨ u.scheme = "file".toList then "//".toList else []) ++
  (if u.authority ≠ [] then authoritySection win skipEncoding u.authority else []) ++
  (if u.path ≠ [] then pathSection win skipEncoding u.path else []) ++
  querySection win skipEncoding u.query ++
  fragmentSection skipEncoding u.fragment

/-! ### The filesystem-path converter (uri.rs `uri_to_fs_path`) -/

/-- uri.rs `uri_to_fs_path` with the platform flag explicit
(`URI::fs_path` calls it with `keep_drive_letter_casing = false`). -/
def uriToFsPath (win : Bool) (u : URI) (keepDriveLetterCasing : Bool) : List Char :=
  let value :=
    if u.authority ≠ [] ∧ 1 < u.path.length ∧ u.scheme = "file".toList then
      "//".toList ++ u.authority ++ u.path
    else
      match u.path with
      | '/' :: d :: ':' :: rest =>
        if isAsciiUpperAlpha d ∨ isAsciiLowerAlpha d then
          if ¬ keepDriveLetterCasing then lowerChar d :: ':' :: rest
          else d :: ':' :: rest
        else u.path
      | _ => u.path
  let value := percentDecode value
  if win then replaceChar '/' ['\\'] value else value

/-! ### Path utilities (utils.rs `Utils`) -/

namespace Utils

/-- One step of the segment loop of `normalize_path`.  The Rust stack is a
`Vec` pushed and popped at its end; it is represented here reversed, the
head of the list being the top of the stack. -/
def normStep (abs : Bool) (st : List (List Char)) (seg : List Char) : List (List Char) :=
  if seg = [] ∨ seg = ['.'] then st
  else if seg = ['.', '.'] then
    if st ≠ [] ∧ ¬ st.head? = some ['.', '.'] then st.tail
    else if ¬ abs then ['.', '.'] :: st
    else st
  else seg :: st

/-- utils.rs `Utils::normalize_path`. -/
def normalize_path (p : List Char) : List Char :=
  if p = [] then ['.']
  else
    let hadTrailing := p.getLast? = some '/' ∧ p ≠ ['/']
    let abs := p.head? = some '/'
    let st := (splitSlash p).foldl (normStep abs) []
    (if abs then ['/'] else []) ++
      (if st = [] then (if abs then [] else ['.']) else joinSegs st.reverse) ++
      (if hadTrailing then ['/'] else [])

/-- utils.rs `Utils::join_path`: the fold carries the accumulated string and
the `had_trailing_slash` flag (initialised from the URI's path, overwritten
by each appended segment's own trailing slash). -/
def join_path (u : URI) (paths : List (List Char)) : Except UriError URI :=
  let step (acc : List Char × Bool) (p : List Char) : List Char × Bool :=
    ((if acc.1.getLast? = some '/' then acc.1 ++ p else acc.1 ++ '/' :: p),
     decide (p.getLast? = some '/'))
  let acc := paths.foldl step (u.path, decide (u.path.getLast? = some '/'))
  let normalized := normalize_path acc.1
  let normalized :=
    if acc.2 ∧ ¬ normalized.getLast? = some '/' then normalized ++ ['/'] else normalized
  u.with { path := some normalized }

/-- The inner segment loop of `resolve_path` for one relative segment
string: `.` is skipped, `..` pops (guarded by `segments.len() > 1`), and
anything else is pushed.  Like `normStep`, the `Vec` is represented
reversed (head = innermost end of the vector). -/
def resolveStep (rsegs : List (List Char)) (seg : List Char) : List (List Char) :=
  if seg = ['.'] then rsegs
  else if seg = ['.', '.'] then
    if 1 < rsegs.length then rsegs.tail else rsegs
  else seg :: rsegs

/-- One iteration of the `for path in paths` loop of `resolve_path`: an
absolute segment replaces the result outright, a relative one is resolved
against the split segments of the accumulated result. -/
def resolveOne (result : List Char) (p : List Char) : List Char :=
  if p.head? = some '/' then p
  else
    let rsegs := (splitSlash p).foldl resolveStep (splitSlash result).reverse
    let joined := joinSegs rsegs.reverse
    if joined = [] then ['/'] else joined

/-- utils.rs `Utils::resolve_path`. -/
def resolve_path (u : URI) (paths : List (List Char)) : Except UriError URI :=
  let base := u.path
  let slashAdded := ¬ base.head? = some '/'
  let base := if base.head? = some '/' then base else '/' :: base
  let result := paths.foldl resolveOne base
  let normalized := normalize_path result
  let finalPath :=
    if slashAdded ∧ u.authority = [] ∧ normalized.head? = some '/' then
      if normalized = ['/'] then [] else normalized.tail
    else normalized
  let finalPath :=
    if 1 < finalPath.length ∧ finalPath.getLast? = some '/' then finalPath.dropLast
    else finalPath
  u.with { path := some finalPath }

/-- Helper for `stripTrail`, working on the reversed string: drop leading
slashes as long as at least one character would remain. -/
def stripTrailRev : List Char → List Char
  | [] => []
  | c :: rest => if c = '/' ∧ rest ≠ [] then stripTrailRev rest else c :: rest

/-- Strip trailing slashes while more than one character remains
(the `while path.len() > 1 && path.ends_with('/')` loops of utils.rs). -/
def stripTrail (p : List Char) : List Char := (stripTrailRev p.reverse).reverse

/-- utils.rs `Utils::dirname`. -/
def dirname (u : URI) : Except UriError URI :=
  if u.path = [] ∨ u.path = ['/'] then .ok u
  else
    let p := stripTrail u.path
    let newPath :=
      match rIdxOf '/' p with
      | some 0 => ['/']
      | some i => p.take i
      | none => []
    u.with { path := some newPath }

/-- The shared "file name" computation of `basename` and `extname`: strip
trailing slashes, then keep the part after the last `/`. -/
def fileSegment (path : List Char) : List Char :=
  let p := stripTrail path
  match rIdxOf '/' p with
  | some i => p.drop (i + 1)
  | none => p

/-- utils.rs `Utils::basename`. -/
def basename (u : URI) : List Char :=
  if u.path = [] ∨ u.path = ['/'] then [] else fileSegment u.path

/-- utils.rs `Utils::extname`.  Rust `rfind` returns a byte index; the
comparisons `last_dot > 0` and `last_dot < filename.len() - 1` hold for the
byte index exactly when they hold for the character index, so the character
index is used. -/
def extname (u : URI) : List Char :=
  if u.path = [] ∨ u.path = ['/'] then []
  else
    let filename := fileSegment u.path
    match rIdxOf '.' filename with
    | some lastDot =>
      if 0 < lastDot ∧ lastDot < filename.length - 1 then filename.drop lastDot
      else []
    | none => []

end Utils

/-! ### Predicates and spec-side definitions used by the claims -/

/-- The two structural invariants claimed in C2 (spec §3). -/
def StructInv (u : URI) : Prop :=
  (u.authority ≠ [] → u.path = [] ∨ u.path.head? = some '/') ∧
  ((u.scheme = "http".toList ∨ u.scheme = "https".toList ∨ u.scheme = "file".toList) →
    u.path ≠ [] ∧ u.path.head? = some '/')

/-- Everything `URI::new` guarantees about a value it returns `Ok`:
a non-empty pattern-valid scheme plus the structural invariants.  Every
public constructor (`new`, `parse`, `file`, `from`) funnels through
`URI::new`, and `with` returns either its receiver or a `URI::new` result,
so every reachable URI value satisfies this. -/
def ConstructedInv (u : URI) : Prop :=
  u.scheme ≠ [] ∧ schemePattern (lowerStr u.scheme) ∧
  (u.authority ≠ [] → u.path = [] ∨ u.path.head? = some '/') ∧
  (u.authority = [] → ¬ startsDD u.path) ∧
  ((u.scheme = "http".toList ∨ u.scheme = "https".toList ∨ u.scheme = "file".toList) →
    u.path ≠ [] ∧ u.path.head? = some '/')

instance (u : URI) : Decidable (StructInv u) := by unfold StructInv; infer_instance

instance (u : URI) : Decidable (ConstructedInv u) := by unfold ConstructedInv; infer_instance

/-- Authority characters that survive `to_string(false)` followed by
`parse` unchanged: no upper case (the formatter lower-cases the authority),
no `@` (user-info splitting), no `%` (re-decoding), none of the characters
the formatter escapes or the parser treats as delimiters. -/
def authLosslessChar (c : Char) : Prop :=
  isAsciiLowerAlpha c ∨ isAsciiDigit c ∨ c = '-' ∨ c = '.' ∨ c = '_' ∨ c = '~' ∨ c = ':'

/-- Path characters requiring no lossy re-encoding: unreserved characters
plus the `/` separator (no `:`, so no drive-letter case folding applies). -/
def pathLosslessChar (c : Char) : Prop :=
  isAsciiAlnum c ∨ c = '-' ∨ c = '.' ∨ c = '_' ∨ c = '~' ∨ c = '/'

/-- Query/fragment characters requiring no lossy re-encoding. -/
def partLosslessChar (c : Char) : Prop :=
  isAsciiAlnum c ∨ c = '-' ∨ c = '.' ∨ c = '_' ∨ c = '~'

instance (c : Char) : Decidable (authLosslessChar c) := by unfold authLosslessChar; infer_instance

instance (c : Char) : Decidable (pathLosslessChar c) := by unfold pathLosslessChar; infer_instance

instance (c : Char) : Decidable (partLosslessChar c) := by unfold partLosslessChar; infer_instance

/-- C1's side condition: the four decoded fields contain no characters that
the full-encoding formatter re-encodes lossily. -/
def losslessFields (u : URI) : Prop :=
  (∀ c ∈ u.authority, authLosslessChar c) ∧ (∀ c ∈ u.path, pathLosslessChar c) ∧
  (∀ c ∈ u.query, partLosslessChar c) ∧ (∀ c ∈ u.fragment, partLosslessChar c)

instance (u : URI) : Decidable (losslessFields u) := by
  unfold losslessFields; infer_instance

/-- The C5 reference algorithm, exactly as the claim words it: split on `/`,
drop empty and `.` segments, let `..` pop the previous real segment unless
the stack is empty (kept literally for relative inputs), rejoin with `/`,
restore a leading `/` if the input was absolute and a trailing `/` if the
input ended with `/` and the result is non-empty. -/
def normalizePathClaimed (p : List Char) : List Char :=
  let abs := p.head? = some '/'
  let segs := (splitSlash p).filter fun s => ¬(s = [] ∨ s = ['.'])
  let st := segs.foldl (Utils.normStep abs) []
  let core := (if abs then ['/'] else []) ++ joinSegs st.reverse
  core ++ (if p.getLast? = some '/' ∧ core ≠ [] then ['/'] else [])

/-- The C5 algorithm as the code actually behaves (the amended claim):
like `normalizePathClaimed` except that an empty input yields `"."`, an
empty final stack on a relative input yields `"."` (before trailing-slash
restoration), and the trailing `/` is restored whenever the input ended
with `/` and is not exactly `"/"` (regardless of the result). -/
def normalizePathAmendedSpec (p : List Char) : List Char :=
  if p = [] then ['.']
  else
    let abs := p.head? = some '/'
    let segs := (splitSlash p).filter fun s => ¬(s = [] ∨ s = ['.'])
    let st := segs.foldl (Utils.normStep abs) []
    let core := (if abs then ['/'] else []) ++
      (if st = [] ∧ ¬ abs then ['.'] else joinSegs st.reverse)
    core ++ (if p.getLast? = some '/' ∧ p ≠ ['/'] then ['/'] else [])

/-- C8's extension rule exactly as the claim words it: the substring of the
basename from its last `.` onward whenever that `.` sits at an index
greater than 0, the empty string otherwise. -/
def extnameClaimed (u : URI) : List Char :=
  let b := Utils.basename u
  match rIdxOf '.' b with
  | some i => if 0 < i then b.drop i else []
  | none => []

/-- C8 amended: the code additionally requires the last `.` to not be the
final character of the basename. -/
def extnameAmendedSpec (u : URI) : List Char :=
  let b := Utils.basename u
  match rIdxOf '.' b with
  | some i => if 0 < i ∧ i < b.length - 1 then b.drop i else []
  | none => []

/-- Separator normalization for C3: on a Windows-style host all separators
become `\`; on a POSIX-style host the path is unchanged. -/
def sepNormalize (win : Bool) (p : List Char) : List Char :=
  if win then replaceChar '/' ['\\'] (replaceChar '\\' ['/'] p) else p

def noPercent (q : List Char) : Prop := '%' ∉ q

/-- A slash-rooted native path that neither looks like an authority
(`//...`) nor like a wrapped drive letter (`/c:...`), nor has `:` in second
position. -/
def wfNativeAbs (q : List Char) : Prop :=
  q.head? = some '/' ∧
    ∀ c, q.get? 1 = some c →
      c ≠ '/' ∧ c ≠ ':' ∧ (isAsciiAlpha c → ¬ q.get? 2 = some ':')

/-- A drive-letter-rooted native path with the drive already lower case
(which is how `fs_path` emits it). -/
def wfNativeDrive (q : List Char) : Prop :=
  ∃ d rest, q = d :: ':' :: rest ∧ isAsciiLowerAlpha d

/-- A UNC-style native path `//host/rest` with non-empty host, a non-empty
remainder, and the remainder not starting with `:` (a `:` right after the
share slash would trigger the drive-letter wrap of `file`). -/
def wfNativeUNC (q : List Char) : Prop :=
  ∃ host rest, q = '/' :: '/' :: (host ++ '/' :: rest) ∧
    host ≠ [] ∧ '/' ∉ host ∧ rest ≠ [] ∧ rest.head? ≠ some ':'

/-- C3 amended: the native paths for which `fs_path ∘ file` round-trips.
`q` is the path with separators normalized to `/`. -/
def wfNative (win : Bool) (p : List Char) : Prop :=
  let q := if win then replaceChar '\\' ['/'] p else p
  noPercent q ∧ (wfNativeAbs q ∨ wfNativeDrive q ∨ wfNativeUNC q)

/-- C3 counterexample value: a constructible URI whose `fs_path` output is
the relative path `a/b`. -/
def c3URI : URI := ⟨"x".toList, [], "a/b".toList, [], []⟩

/-- C7 counterexample value: a constructible URI with an empty path. -/
def c7URI : URI := ⟨"s".toList, [], [], [], []⟩

/-- C8 counterexample value: the parse of `foo://a/foo/bar.`. -/
def c8URI : URI := ⟨"foo".toList, "a".toList, "/foo/bar.".toList, [], []⟩

/-- C10 counterexample value: non-empty authority with empty path. -/
def c10URI : URI := ⟨"s".toList, "a".toList, [], [], []⟩

/-- A segment that can sit on the `normalize_path` stack: non-empty, not
`.`, and containing no `/`. -/
def SegOk (x : List Char) : Prop := x ≠ [] ∧ x ≠ ['.'] ∧ '/' ∉ x

/-- Invariant of the `normalize_path` stack (represented reversed, head =
top): all entries are `SegOk`, the `..` entries sit at the bottom, and an
absolute input never stacks `..`. -/
def StackShape (abs : Bool) (st : List (List Char)) : Prop :=
  (∀ x ∈ st, SegOk x) ∧
    ∃ reals dds, st = reals ++ dds ∧ (∀ x ∈ dds, x = ['.', '.']) ∧
      (∀ x ∈ reals, x ≠ ['.', '.']) ∧ (abs = true → dds = [])

/-- The final segment stack `normalize_path` computes for an input. -/
def normStack (p : List Char) : List (List Char) :=
  (splitSlash p).foldl (Utils.normStep (decide (p.head? = some '/'))) []

/-! ## Lemmas: percent decoding -/

theorem runLen_pos_head {s : List Char} (h : 0 < runLen s) : s.head? = some '%' := by
  rw [runLen.eq_def] at h
  split at h
  · rfl
  · simp at h

theorem hasRun_false_of_noPercent {s : List Char} (h : '%' ∉ s) : hasRun s = false := by
  induction s with
  | nil => rfl
  | cons c rest ih =>
    rw [hasRun]
    have hc : c ≠ '%' := fun hc => h (hc ▸ List.mem_cons_self c rest)
    have h0 : runLen (c :: rest) = 0 := by
      rcases Nat.eq_zero_or_pos (runLen (c :: rest)) with h0 | h0
      · exact h0
      · exact absurd (runLen_pos_head h0) (by simpa using hc)
    have hrest : hasRun rest = false := ih fun hm => h (List.mem_cons_of_mem c hm)
    simp [h0, hrest]

theorem percentDecode_of_noPercent {s : List Char} (h : '%' ∉ s) :
    percentDecode s = s := by
  unfold percentDecode
  rw [hasRun_false_of_noPercent h]
  rfl

/-! ## Lemmas: validation and construction -/

theorem validateUri_ok_iff (u : URI) :
    validateUri u false = .ok () ↔
      ((u.scheme ≠ [] → schemePattern (lowerStr u.scheme)) ∧
        (u.path ≠ [] → u.authority ≠ [] → u.path.head? = some '/') ∧
        (u.path ≠ [] → u.authority = [] → ¬ startsDD u.path)) := by
  unfold validateUri
  split_ifs with h1 h2 h3 h4 <;> simp_all

theorem schemeFix_ne_nil (s : List Char) : schemeFix s false ≠ [] := by
  by_cases hs : s = []
  · subst hs; decide
  · simpa [schemeFix, hs] using hs

theorem referenceResolution_special {scheme path : List Char}
    (h : scheme = "http".toList ∨ scheme = "https".toList ∨ scheme = "file".toList) :
    referenceResolution scheme path ≠ [] ∧
      (referenceResolution scheme path).head? = some '/' := by
  unfold referenceResolution
  have hs : scheme = "https".toList ∨ scheme = "http".toList ∨ scheme = "file".toList := by
    tauto
  rw [if_pos hs]
  split_ifs with hp hh
  · exact ⟨by decide, by decide⟩
  · exact ⟨hp, hh⟩
  · simp

theorem referenceResolution_of_head {scheme path : List Char}
    (h : path.head? = some '/') : referenceResolution scheme path = path := by
  unfold referenceResolution
  have hne : path ≠ [] := by rintro rfl; simp at h
  split_ifs <;> simp_all

theorem referenceResolution_not_special {scheme path : List Char}
    (h : ¬(scheme = "https".toList ∨ scheme = "http".toList ∨ scheme = "file".toList)) :
    referenceResolution scheme path = path := by
  unfold referenceResolution
  rw [if_neg h]

theorem new_ok_elim {s a p q f : List Char} {u : URI}
    (h : URI.new s a p q f = .ok u) :
    u = ⟨schemeFix s false, a, referenceResolution (schemeFix s false) p, q, f⟩ ∧
      validateUri u false = .ok () := by
  simp only [URI.new] at h
  cases hv : validateUri ⟨schemeFix s false, a,
      referenceResolution (schemeFix s false) p, q, f⟩ false with
  | ok v =>
    rw [hv] at h
    simp only [Except.map] at h
    cases h
    cases v
    exact ⟨rfl, hv⟩
  | error e =>
    rw [hv] at h
    simp [Except.map] at h

theorem new_ok_inv {s a p q f : List Char} {u : URI}
    (h : URI.new s a p q f = .ok u) : ConstructedInv u := by
  obtain ⟨hu, hv⟩ := new_ok_elim h
  rw [validateUri_ok_iff] at hv
  obtain ⟨hpat, hauth, hdd⟩ := hv
  have hscheme : u.scheme ≠ [] := by rw [hu]; exact schemeFix_ne_nil s
  refine ⟨hscheme, hpat hscheme, ?_, ?_, ?_⟩
  · intro ha
    by_cases hp : u.path = []
    · exact Or.inl hp
    · exact Or.inr (hauth hp ha)
  · intro ha hddp
    by_cases hp : u.path = []
    · rw [hp] at hddp; simp [startsDD] at hddp
    · exact hdd hp ha hddp
  · intro hsp
    have := @referenceResolution_special u.scheme p hsp
    have hpath : u.path = referenceResolution u.scheme p := by
      rw [hu]
    rw [hpath]
    exact this

theorem new_of_inv {u : URI} (h : ConstructedInv u) :
    URI.new u.scheme u.authority u.path u.query u.fragment = .ok u := by
  obtain ⟨hs, hpat, hauth, hdd, hspec⟩ := h
  have hfix : schemeFix u.scheme false = u.scheme := by
    unfold schemeFix
    rw [if_neg (by simp [hs])]
  have href : referenceResolution u.scheme u.path = u.path := by
    by_cases hsp : u.scheme = "http".toList ∨ u.scheme = "https".toList ∨
        u.scheme = "file".toList
    · exact referenceResolution_of_head (hspec hsp).2
    · exact referenceResolution_not_special (by tauto)
  have hval : validateUri u false = .ok () := by
    rw [validateUri_ok_iff]
    refine ⟨fun _ => hpat, fun hp ha => ?_, fun hp ha => hdd ha⟩
    rcases hauth ha with h | h
    · exact absurd h hp
    · exact h
  simp only [URI.new, hfix, href]
  have hrec : (⟨u.scheme, u.authority, u.path, u.query, u.fragment⟩ : URI) = u := rfl
  rw [hrec, hval]
  rfl

theorem parse_ok_inv {v : List Char} {u : URI} (h : URI.parse v = .ok u) :
    ConstructedInv u := by
  unfold URI.parse at h
  split_ifs at h
  · exact new_ok_inv h
  · exact new_ok_inv h

theorem file_ok_inv {win : Bool} {v : List Char} {u : URI}
    (h : URI.file win v = .ok u) : ConstructedInv u := by
  unfold URI.file at h
  exact new_ok_inv h

theorem fromComponents_ok_inv {c : URIComponents} {u : URI}
    (h : URI.fromComponents c = .ok u) : ConstructedInv u := by
  exact new_ok_inv h

theorem with_ok_inv {u0 : URI} {ch : URIChange} {u : URI}
    (hinv : ConstructedInv u0) (h : URI.with u0 ch = .ok u) : ConstructedInv u := by
  simp only [URI.with] at h
  split_ifs at h
  · cases h; exact hinv
  · exact new_ok_inv h

theorem inv_structInv {u : URI} (h : ConstructedInv u) : StructInv u :=
  ⟨h.2.2.1, h.2.2.2.2⟩

/-- C2: every URI value returned `Ok` by `new`, `parse`, `file`, `from`
(`fromComponents`) — or by `with` from a receiver that itself satisfies the
constructor guarantees — satisfies the structural invariants: a non-empty
authority forces an empty or slash-initial path, and the schemes http,
https and file force a non-empty path starting with `/` (an empty path
having been coerced to `/` and a relative one given a leading `/` by
`reference_resolution`). -/
theorem c2_structural_invariants :
    (∀ s a p q f u, URI.new s a p q f = .ok u → StructInv u) ∧
    (∀ v u, URI.parse v = .ok u → StructInv u) ∧
    (∀ win v u, URI.file win v = .ok u → StructInv u) ∧
    (∀ c u, URI.fromComponents c = .ok u → StructInv u) ∧
    (∀ u0 ch u, ConstructedInv u0 → URI.with u0 ch = .ok u → StructInv u) :=
  ⟨fun _ _ _ _ _ _ h => inv_structInv (new_ok_inv h),
   fun _ _ h => inv_structInv (parse_ok_inv h),
   fun _ _ _ h => inv_structInv (file_ok_inv h),
   fun _ _ h => inv_structInv (fromComponents_ok_inv h),
   fun _ _ _ hinv h => inv_structInv (with_ok_inv hinv h)⟩

/-- Witness for C2: the invariants hold for the parse of `http://h`. -/
theorem c2_structural_invariants_witness :
    StructInv ⟨"http".toList, "h".toList, ['/'], [], []⟩ :=
  c2_structural_invariants.2.1 "http://h".toList _ rfl

/-! ## C9: what the error values carry -/

theorem validate_error_no_fields {u : URI} {e : UriError}
    (h : validateUri u false = .error e) : e.carriedFields = none := by
  unfold validateUri at h
  split_ifs at h <;> (try cases h) <;> simp_all [UriError.carriedFields]

theorem new_error_no_fields {s a p q f : List Char} {e : UriError}
    (h : URI.new s a p q f = .error e) : e.carriedFields = none := by
  simp only [URI.new] at h
  cases hv : validateUri ⟨schemeFix s false, a,
      referenceResolution (schemeFix s false) p, q, f⟩ false with
  | ok v => rw [hv] at h; simp [Except.map] at h
  | error e2 =>
    rw [hv] at h
    simp only [Except.map] at h
    cases h
    exact validate_error_no_fields hv

/-- C9 counterexample: `new` with the invalid scheme `1x` returns
`IllegalSchemeCharacters`, a payload-free error variant — it does not carry
the candidate field values, contrary to the claim. -/
theorem c9_counterexample :
    URI.new "1x".toList [] [] [] [] = .error .illegalSchemeCharacters ∧
      UriError.carriedFields .illegalSchemeCharacters = none :=
  ⟨rfl, rfl⟩

/-- C9 amended: no error value actually returned by the constructors
carries any candidate field values: `MissingScheme` — the only variant with
payload fields — is unreachable because every constructor validates with
`strict = false`, and the three reachable variants
(`IllegalSchemeCharacters`, `InvalidAuthorityPath`,
`InvalidPathWithoutAuthority`) are payload-free. -/
theorem c9_errors_carry_no_fields :
    (∀ s a p q f e, URI.new s a p q f = .error e → e.carriedFields = none) ∧
    (∀ v e, URI.parse v = .error e → e.carriedFields = none) ∧
    (∀ win v e, URI.file win v = .error e → e.carriedFields = none) ∧
    (∀ c e, URI.fromComponents c = .error e → e.carriedFields = none) ∧
    (∀ u ch e, URI.with u ch = .error e → e.carriedFields = none) := by
  refine ⟨fun _ _ _ _ _ _ h => new_error_no_fields h, fun v e h => ?_,
    fun _ v e h => ?_, fun c e h => ?_, fun u ch e h => ?_⟩
  · unfold URI.parse at h
    split_ifs at h
    · exact new_error_no_fields h
    · exact new_error_no_fields h
  · unfold URI.file at h
    exact new_error_no_fields h
  · exact new_error_no_fields h
  · simp only [URI.with] at h
    split_ifs at h
    · exact new_error_no_fields h

/-- Witness for the amended C9 at a concrete erroring input. -/
theorem c9_errors_carry_no_fields_witness :
    (UriError.illegalSchemeCharacters).carriedFields = none :=
  c9_errors_carry_no_fields.1 "1y".toList [] [] [] [] _ rfl

/-! ## C8: extname -/

/-- C8 counterexample: for `foo://a/foo/bar.` the basename `bar.` contains
a `.` at index 3 > 0, so the claim demands the extension `"."`; the code
returns the empty string because the dot is the final character. -/
theorem c8_counterexample :
    URI.parse "foo://a/foo/bar.".toList = .ok c8URI ∧
      Utils.extname c8URI = [] ∧ extnameClaimed c8URI = ['.'] ∧ ([] : List Char) ≠ ['.'] :=
  ⟨rfl, rfl, rfl, by decide⟩

/-- C8 amended: `extname` returns the substring of the basename from its
last `.` onward whenever that `.` is at an index greater than 0 *and
before the last character* (so both leading-dot names and names ending in
`.` have no extension), and the empty string otherwise; the claim's two
concrete examples still hold. -/
theorem c8_extname_rule :
    (∀ u : URI, Utils.extname u = extnameAmendedSpec u) ∧
      (URI.parse "foo://a/foo/bar.foo".toList).map Utils.extname = .ok ".foo".toList ∧
      (URI.parse "foo://a/foo/.foo".toList).map Utils.extname = .ok [] := by
  refine ⟨fun u => ?_, rfl, rfl⟩
  unfold Utils.extname extnameAmendedSpec Utils.basename
  split_ifs with h
  · rfl
  · rfl

/-! ## C7: path rendering in the formatter -/

theorem eq_append_of_getLast {s : List Char} {c : Char} (h : s.getLast? = some c) :
    ∃ t, s = t ++ [c] := by
  induction s with
  | nil => simp at h
  | cons a tail ih =>
    cases tail with
    | nil =>
      simp only [List.getLast?_singleton, Option.some.injEq] at h
      exact ⟨[], by rw [h]; rfl⟩
    | cons b rest =>
      rw [List.getLast?_cons_cons] at h
      obtain ⟨t, ht⟩ := ih h
      exact ⟨a :: t, by rw [ht]; rfl⟩

theorem flatmap_last_slash {f : Char → List Char} (hf : f '/' = ['/'])
    {s : List Char} (h : s.getLast? = some '/') :
    ((s.map f).flatten).getLast? = some '/' := by
  obtain ⟨t, rfl⟩ := eq_append_of_getLast h
  rw [List.map_append, List.flatten_append]
  simp [hf]

theorem flatmap_head_slash {f : Char → List Char} (hf : f '/' = ['/'])
    {s : List Char} (h : s.head? = some '/') :
    ((s.map f).flatten).head? = some '/' := by
  cases s with
  | nil => simp at h
  | cons a t =>
    simp only [List.head?_cons, Option.some.injEq] at h
    subst h
    simp [hf]

theorem driveFold_getLast (p : List Char) : (driveFold p).getLast? = p.getLast? := by
  unfold driveFold
  split_ifs with h1 h2 <;> try rfl
  · split <;> try rfl
    split_ifs <;> rfl
  · split <;> try rfl
    split_ifs with hu
    · rw [List.getLast?_cons_cons, List.getLast?_cons_cons]
    · rfl

theorem driveFold_head_slash {p : List Char} (h : p.head? = some '/') :
    (driveFold p).head? = some '/' := by
  unfold driveFold
  split_ifs with h1 h2 <;> try exact h
  · split <;> try exact h
    split_ifs <;> rfl
  · split <;> try exact h
    split_ifs with hu
    · simp_all [isAsciiUpperAlpha]
    · exact h

theorem replaceChar_last_slash {s : List Char} (h : s.getLast? = some '/') :
    (replaceChar '\\' "%5C".toList s).getLast? = some '/' :=
  flatmap_last_slash (by decide) h

theorem replaceChar_head_slash {s : List Char} (h : s.head? = some '/') :
    (replaceChar '\\' "%5C".toList s).head? = some '/' :=
  flatmap_head_slash (by decide) h

theorem encodeFast_last_slash {s : List Char} {ia : Bool} (h : s.getLast? = some '/') :
    (encodeFast s true ia).getLast? = some '/' :=
  flatmap_last_slash (by cases ia <;> decide) h

theorem encodeFast_head_slash {s : List Char} {ia : Bool} (h : s.head? = some '/') :
    (encodeFast s true ia).head? = some '/' :=
  flatmap_head_slash (by cases ia <;> decide) h

theorem encodeMinimal_last_slash {s : List Char} (h : s.getLast? = some '/') :
    (encodeMinimal s).getLast? = some '/' :=
  flatmap_last_slash (by decide) h

theorem encodeMinimal_head_slash {s : List Char} (h : s.head? = some '/') :
    (encodeMinimal s).head? = some '/' :=
  flatmap_head_slash (by decide) h

theorem pathSection_last_slash (win skip : Bool) {p : List Char}
    (h : p.getLast? = some '/') : (pathSection win skip p).getLast? = some '/' := by
  have hd : (driveFold p).getLast? = some '/' := (driveFold_getLast p).trans h
  unfold pathSection fmtEncoder
  split_ifs with h1 h2
  · exact encodeMinimal_last_slash hd
  · exact encodeFast_last_slash (replaceChar_last_slash hd)
  · exact encodeFast_last_slash hd

theorem pathSection_head_slash (win skip : Bool) {p : List Char}
    (h : p.head? = some '/') : (pathSection win skip p).head? = some '/' := by
  have hd : (driveFold p).head? = some '/' := driveFold_head_slash h
  unfold pathSection fmtEncoder
  split_ifs with h1 h2
  · exact encodeMinimal_head_slash hd
  · exact encodeFast_head_slash (replaceChar_head_slash hd)
  · exact encodeFast_head_slash hd

/-- C7 counterexample: for the constructible URI with scheme `s` and empty
path, `to_string` (in both modes) emits `s:` — no `/` appears at all, so
no leading `/` is emitted in the path position, contrary to the claim. -/
theorem c7_counterexample :
    URI.new "s".toList [] [] [] [] = .ok c7URI ∧
      asFormatted false c7URI false = "s:".toList ∧
      asFormatted false c7URI true = "s:".toList ∧
      '/' ∉ "s:".toList :=
  ⟨rfl, rfl, rfl, by decide⟩

/-- C7 amended: in both encoding modes the rendered path position preserves
a trailing `/` of the path field and keeps the leading `/` of a non-empty
absolute path; a URI with an *empty* path emits nothing at all in the path
position (rather than the single `/` the claim asserts). -/
theorem c7_path_rendering :
    (∀ (win skip : Bool) (p : List Char), p.getLast? = some '/' →
      (pathSection win skip p).getLast? = some '/') ∧
    (∀ (win skip : Bool) (p : List Char), p.head? = some '/' →
      (pathSection win skip p).head? = some '/') ∧
    (∀ (win skip : Bool) (u : URI), u.path = [] →
      asFormatted win u skip =
        (if u.scheme ≠ [] then u.scheme ++ [':'] else []) ++
        (if u.authority ≠ [] ∨ u.scheme = "file".toList then "//".toList else []) ++
        (if u.authority ≠ [] then authoritySection win skip u.authority else []) ++
        querySection win skip u.query ++ fragmentSection skip u.fragment) := by
  refine ⟨fun win skip p h => pathSection_last_slash win skip h,
    fun win skip p h => pathSection_head_slash win skip h,
    fun win skip u h => ?_⟩
  unfold asFormatted
  rw [h]
  simp

/-- Witness for the amended C7 at concrete inputs. -/
theorem c7_path_rendering_witness :
    (pathSection false false "/a/".toList).getLast? = some '/' ∧
      (pathSection true true "/a/".toList).head? = some '/' ∧
      asFormatted false c7URI false =
        (if c7URI.scheme ≠ [] then c7URI.scheme ++ [':'] else []) ++
        (if c7URI.authority ≠ [] ∨ c7URI.scheme = "file".toList then "//".toList else []) ++
        (if c7URI.authority ≠ [] then authoritySection false false c7URI.authority else []) ++
        querySection false false c7URI.query ++ fragmentSection false c7URI.fragment :=
  ⟨c7_path_rendering.1 false false _ (by decide),
   c7_path_rendering.2.1 true true _ (by decide),
   c7_path_rendering.2.2 false false c7URI rfl⟩

/-! ## C5: normalize_path against the reference algorithm -/

theorem normStep_skip {abs : Bool} {st : List (List Char)} {seg : List Char}
    (h : seg = [] ∨ seg = ['.']) : Utils.normStep abs st seg = st := by
  unfold Utils.normStep
  rw [if_pos h]

theorem foldl_normStep_filter (abs : Bool) (segs : List (List Char)) :
    ∀ st, (segs.filter fun s => ¬(s = [] ∨ s = ['.'])).foldl (Utils.normStep abs) st =
      segs.foldl (Utils.normStep abs) st := by
  induction segs with
  | nil => intro st; rfl
  | cons seg rest ih =>
    intro st
    by_cases hk : seg = [] ∨ seg = ['.']
    · rw [List.filter_cons, if_neg (by simp [hk]), List.foldl_cons, normStep_skip hk]
      exact ih st
    · rw [List.filter_cons, if_pos (by simp [hk]), List.foldl_cons, List.foldl_cons]
      exact ih (Utils.normStep abs st seg)

/-- C5 counterexample: on the empty string the code returns `"."` while the
claim's reference algorithm returns the empty string. -/
theorem c5_counterexample :
    Utils.normalize_path [] = ['.'] ∧ normalizePathClaimed [] = [] ∧
      (['.'] : List Char) ≠ [] :=
  ⟨rfl, rfl, by decide⟩

/-- C5 amended: `normalize_path` equals the claim's reference algorithm
amended in three places where the code differs — the empty input maps to
`"."`, an empty final segment stack on a relative input yields `"."`, and
the trailing `/` is restored whenever the input ends with `/` and is not
exactly `"/"` (for an absolute input whose stack empties, both algorithms
produce `"//"`). -/
theorem c5_normalize_rule :
    ∀ p : List Char, Utils.normalize_path p = normalizePathAmendedSpec p := by
  intro p
  by_cases hp : p = []
  · subst hp; rfl
  · simp only [Utils.normalize_path, normalizePathAmendedSpec, if_neg hp]
    rw [foldl_normStep_filter]
    by_cases habs : p.head? = some '/'
    · by_cases hst : List.foldl (Utils.normStep true) [] (splitSlash p) = []
      · simp [habs, hst, joinSegs, List.intercalate, List.append_assoc]
      · simp [habs, hst, joinSegs, List.append_assoc]
    · by_cases hst : List.foldl (Utils.normStep false) [] (splitSlash p) = []
      · simp [habs, hst, joinSegs, List.intercalate, List.append_assoc]
      · simp [habs, hst, joinSegs, List.append_assoc]

/-! ## Lemmas: splitting and joining on slashes -/

theorem splitSlash_ne_nil (s : List Char) : splitSlash s ≠ [] := by
  cases s with
  | nil => simp [splitSlash]
  | cons c rest =>
    unfold splitSlash
    split_ifs
    · simp
    · cases h : splitSlash rest <;> simp

theorem splitSlash_cons_slash (s : List Char) : splitSlash ('/' :: s) = [] :: splitSlash s :=
  rfl

theorem splitSlash_cons_ne {c : Char} (hc : c ≠ '/') (s : List Char) :
    ∃ hd tl, splitSlash s = hd :: tl ∧ splitSlash (c :: s) = (c :: hd) :: tl := by
  cases h : splitSlash s with
  | nil => exact absurd h (splitSlash_ne_nil s)
  | cons hd tl =>
    refine ⟨hd, tl, rfl, ?_⟩
    unfold splitSlash
    rw [if_neg hc, h]

theorem mem_splitSlash_no_slash {s : List Char} {seg : List Char}
    (h : seg ∈ splitSlash s) : '/' ∉ seg := by
  induction s generalizing seg with
  | nil =>
    simp [splitSlash] at h
    simp [h]
  | cons c rest ih =>
    by_cases hc : c = '/'
    · subst hc
      rw [splitSlash_cons_slash] at h
      rcases List.mem_cons.mp h with h | h
      · simp [h]
      · exact ih h
    · obtain ⟨hd, tl, hsp, hcons⟩ := splitSlash_cons_ne hc rest
      rw [hcons] at h
      rcases List.mem_cons.mp h with h | h
      · subst h
        intro hm
        rcases List.mem_cons.mp hm with h | h
        · exact hc h.symm
        · exact ih (hsp ▸ List.mem_cons_self hd tl) h
      · exact ih (by rw [hsp]; exact List.mem_cons_of_mem hd h)

theorem splitSlash_no_slash {a : List Char} (ha : '/' ∉ a) : splitSlash a = [a] := by
  induction a with
  | nil => rfl
  | cons c rest ih =>
    have hc : c ≠ '/' := fun h => ha (h ▸ List.mem_cons_self c rest)
    have hrest : '/' ∉ rest := fun h => ha (List.mem_cons_of_mem c h)
    obtain ⟨hd, tl, hsp, hcons⟩ := splitSlash_cons_ne hc rest
    rw [hcons, ih hrest] at *
    cases hsp
    rfl

theorem splitSlash_append_sep {a : List Char} (ha : '/' ∉ a) (t : List Char) :
    splitSlash (a ++ '/' :: t) = a :: splitSlash t := by
  induction a with
  | nil => exact splitSlash_cons_slash t
  | cons c rest ih =>
    have hc : c ≠ '/' := fun h => ha (h ▸ List.mem_cons_self c rest)
    have hrest : '/' ∉ rest := fun h => ha (List.mem_cons_of_mem c h)
    obtain ⟨hd, tl, hsp, hcons⟩ := splitSlash_cons_ne hc (rest ++ '/' :: t)
    rw [List.cons_append, hcons]
    rw [ih hrest] at hsp
    cases hsp
    rfl

theorem splitSlash_append_last_slash (s : List Char) :
    splitSlash (s ++ ['/']) = splitSlash s ++ [[]] := by
  induction s with
  | nil => rfl
  | cons c rest ih =>
    by_cases hc : c = '/'
    · subst hc
      rw [List.cons_append, splitSlash_cons_slash, splitSlash_cons_slash, ih]
      rfl
    · obtain ⟨hd, tl, hsp, hcons⟩ := splitSlash_cons_ne hc rest
      obtain ⟨hd2, tl2, hsp2, hcons2⟩ := splitSlash_cons_ne hc (rest ++ ['/'])
      rw [List.cons_append, hcons2, hcons]
      rw [ih, hsp] at hsp2
      have h1 : hd2 = hd := by
        have := congrArg List.head? hsp2
        simpa using this.symm
      have h2 : tl2 = tl ++ [[]] := by
        have := congrArg List.tail hsp2
        simpa using this.symm
      subst h1
      subst h2
      rfl

theorem joinSegs_nil : joinSegs [] = [] := rfl

theorem joinSegs_single (x : List Char) : joinSegs [x] = x := by
  simp [joinSegs, List.intercalate]

theorem joinSegs_cons2 (x y : List Char) (ys : List (List Char)) :
    joinSegs (x :: y :: ys) = x ++ '/' :: joinSegs (y :: ys) := by
  simp [joinSegs, List.intercalate, List.intersperse]

theorem splitSlash_joinSegs {segs : List (List Char)} (hne : segs ≠ [])
    (hsl : ∀ x ∈ segs, '/' ∉ x) : splitSlash (joinSegs segs) = segs := by
  induction segs with
  | nil => exact absurd rfl hne
  | cons x xs ih =>
    cases xs with
    | nil =>
      rw [joinSegs_single]
      exact splitSlash_no_slash (hsl x (List.mem_cons_self x []))
    | cons y ys =>
      rw [joinSegs_cons2]
      rw [splitSlash_append_sep (hsl x (List.mem_cons_self x _))]
      rw [ih (by simp) fun z hz => hsl z (List.mem_cons_of_mem x hz)]

theorem joinSegs_ne_nil {x : List Char} {xs : List (List Char)} (hx : x ≠ []) :
    joinSegs (x :: xs) ≠ [] := by
  cases xs with
  | nil => rw [joinSegs_single]; exact hx
  | cons y ys =>
    rw [joinSegs_cons2]
    simp

theorem joinSegs_head {x : List Char} {xs : List (List Char)} (hx : x ≠ []) :
    (joinSegs (x :: xs)).head? = x.head? := by
  cases xs with
  | nil => rw [joinSegs_single]
  | cons y ys =>
    rw [joinSegs_cons2]
    cases x with
    | nil => exact absurd rfl hx
    | cons c t => rfl

theorem joinSegs_getLast {x : List Char} (hx : x ≠ []) :
    ∀ ys : List (List Char), (joinSegs (ys ++ [x])).getLast? = x.getLast? := by
  intro ys
  induction ys with
  | nil => rw [List.nil_append, joinSegs_single]
  | cons y ys ih =>
    have hcons : ∃ z zs, ys ++ [x] = z :: zs := by
      cases ys with
      | nil => exact ⟨x, [], rfl⟩
      | cons a as => exact ⟨a, as ++ [x], rfl⟩
    obtain ⟨z, zs, hz⟩ := hcons
    rw [List.cons_append, hz, joinSegs_cons2, ← hz]
    have hne : joinSegs (ys ++ [x]) ≠ [] := by
      rw [hz]
      cases zs with
      | nil =>
        have : z = x := by
          cases ys <;> simp_all
        rw [joinSegs_single, this]; exact hx
      | cons w ws =>
        rw [joinSegs_cons2]; simp
    rw [← ih]
    rw [List.getLast?_append_cons]
    cases h3 : joinSegs (ys ++ [x]) with
    | nil => exact absurd h3 hne
    | cons w ws => rw [List.getLast?_cons_cons]

/-! ## Lemmas: the normalize_path stack invariant -/

theorem stackShape_nil (abs : Bool) : StackShape abs [] :=
  ⟨by simp, [], [], rfl, by simp, by simp, fun _ => rfl⟩

theorem normStep_shape {abs : Bool} {st : List (List Char)} {seg : List Char}
    (hs : StackShape abs st) (hseg : '/' ∉ seg) :
    StackShape abs (Utils.normStep abs st seg) := by
  obtain ⟨hok, reals, dds, hst, hdd, hre, habs⟩ := hs
  unfold Utils.normStep
  split_ifs with h1 h2 h3 h4
  · exact ⟨hok, reals, dds, hst, hdd, hre, habs⟩
  · -- seg = "..", pop branch: the stack is non-empty with a real top
    obtain ⟨hne, hhd⟩ := h3
    cases reals with
    | nil =>
      exfalso
      rw [hst, List.nil_append] at hne hhd
      cases dds with
      | nil => exact hne rfl
      | cons d ds => exact hhd (by simp [hdd d (List.mem_cons_self d ds)])
    | cons r rs =>
      subst hst
      simp only [List.cons_append, List.tail_cons]
      refine ⟨fun x hx => hok x (by
          rw [List.cons_append]
          exact List.mem_cons_of_mem r hx),
        rs, dds, rfl, hdd,
        fun x hx => hre x (List.mem_cons_of_mem r hx), habs⟩
  · -- seg = "..", absolute input with nothing to pop: stack unchanged
    exact ⟨hok, reals, dds, hst, hdd, hre, habs⟩
  · -- seg = "..", push branch (relative input, no real segment to pop)
    have hreals : reals = [] := by
      cases reals with
      | nil => rfl
      | cons r rs =>
        exfalso
        apply h3
        rw [hst, List.cons_append]
        refine ⟨by simp, ?_⟩
        intro hr
        simp only [List.head?_cons, Option.some.injEq] at hr
        exact hre r (List.mem_cons_self r rs) hr
    have habsf : abs = false := by
      cases abs
      · rfl
      · exact absurd rfl h4
    subst hreals
    rw [List.nil_append] at hst
    subst hst
    refine ⟨?_, [], ['.', '.'] :: st, by simp, ?_, by simp, by simp [habsf]⟩
    · intro x hx
      rcases List.mem_cons.mp hx with h | h
      · subst h
        exact ⟨by simp, by simp, by simp⟩
      · exact hok x h
    · intro x hx
      rcases List.mem_cons.mp hx with h | h
      · exact h
      · exact hdd x h
  · -- a real segment is pushed
    have hsegok : SegOk seg := by
      refine ⟨?_, ?_, hseg⟩
      · intro h; exact h1 (Or.inl h)
      · intro h; exact h1 (Or.inr h)
    refine ⟨?_, seg :: reals, dds, by rw [hst]; rfl, hdd, ?_, habs⟩
    · intro x hx
      rcases List.mem_cons.mp hx with h | h
      · subst h; exact hsegok
      · exact hok x h
    · intro x hx
      rcases List.mem_cons.mp hx with h | h
      · subst h; exact h2
      · exact hre x h

theorem foldl_normStep_shape {abs : Bool} (segs : List (List Char)) :
    ∀ st, StackShape abs st → (∀ seg ∈ segs, '/' ∉ seg) →
      StackShape abs (segs.foldl (Utils.normStep abs) st) := by
  induction segs with
  | nil => intro st hst _; exact hst
  | cons seg rest ih =>
    intro st hst hsl
    rw [List.foldl_cons]
    exact ih _ (normStep_shape hst (hsl seg (List.mem_cons_self seg rest)))
      fun x hx => hsl x (List.mem_cons_of_mem seg hx)

theorem foldl_normStep_dds {abs : Bool} (dd : List (List Char))
    (hdd : ∀ x ∈ dd, x = ['.', '.']) (habs : dd ≠ [] → abs = false) :
    ∀ acc, (∀ x ∈ acc, x = ['.', '.']) →
      dd.foldl (Utils.normStep abs) acc = dd.reverse ++ acc := by
  induction dd with
  | nil => intro acc _; rfl
  | cons x rest ih =>
    intro acc hacc
    have hx : x = ['.', '.'] := hdd x (List.mem_cons_self x rest)
    have habsf : abs = false := habs (by simp)
    rw [List.foldl_cons]
    have hstep : Utils.normStep abs acc x = ['.', '.'] :: acc := by
      subst hx
      unfold Utils.normStep
      rw [if_neg (by simp), if_pos rfl]
      rw [if_neg, if_pos (by simp [habsf])]
      rintro ⟨hne, hhd⟩
      cases acc with
      | nil => exact hne rfl
      | cons a as => exact hhd (by simp [hacc a (List.mem_cons_self a as)])
    rw [hstep]
    rw [ih (fun y hy => hdd y (List.mem_cons_of_mem x hy))
      (fun h => habsf) _ (by
        intro y hy
        rcases List.mem_cons.mp hy with h | h
        · exact h
        · exact hacc y h)]
    subst hx
    simp

theorem foldl_normStep_reals {abs : Bool} (rs : List (List Char))
    (hre : ∀ x ∈ rs, SegOk x ∧ x ≠ ['.', '.']) :
    ∀ acc, rs.foldl (Utils.normStep abs) acc = rs.reverse ++ acc := by
  induction rs with
  | nil => intro acc; rfl
  | cons x rest ih =>
    intro acc
    obtain ⟨⟨hne, hdot, _⟩, hdd⟩ := hre x (List.mem_cons_self x rest)
    have hstep : Utils.normStep abs acc x = x :: acc := by
      unfold Utils.normStep
      rw [if_neg (by simp [hne, hdot]), if_neg hdd]
    rw [List.foldl_cons, hstep,
      ih (fun y hy => hre y (List.mem_cons_of_mem x hy)) _]
    simp

/-! ## Lemmas: the rendered normal form of normalize_path -/

theorem exists_head_mem {l : List Char} (h : l ≠ []) :
    ∃ c, l.head? = some c ∧ c ∈ l := by
  cases l with
  | nil => exact absurd rfl h
  | cons a t => exact ⟨a, rfl, List.mem_cons_self a t⟩

theorem exists_getLast_mem {l : List Char} (h : l ≠ []) :
    ∃ c, l.getLast? = some c ∧ c ∈ l := by
  induction l with
  | nil => exact absurd rfl h
  | cons a t ih =>
    cases t with
    | nil => exact ⟨a, rfl, List.mem_cons_self a []⟩
    | cons b r =>
      obtain ⟨c, hc, hm⟩ := ih (by simp)
      exact ⟨c, by rw [List.getLast?_cons_cons]; exact hc, List.mem_cons_of_mem a hm⟩

theorem normStack_shape (p : List Char) :
    StackShape (decide (p.head? = some '/')) (normStack p) :=
  foldl_normStep_shape (splitSlash p) [] (stackShape_nil _)
    fun _ hs => mem_splitSlash_no_slash hs

theorem normalize_eq (p : List Char) (hp : p ≠ []) :
    Utils.normalize_path p =
      (if p.head? = some '/' then ['/'] else []) ++
        (if normStack p = [] then (if p.head? = some '/' then [] else ['.'])
          else joinSegs (normStack p).reverse) ++
        (if p.getLast? = some '/' ∧ p ≠ ['/'] then ['/'] else []) := by
  simp only [Utils.normalize_path, if_neg hp, normStack]

/-- Refolding a well-shaped stack's rendered segments recovers the stack. -/
theorem foldl_normStep_reverse {abs : Bool} {st : List (List Char)}
    (hsh : StackShape abs st) :
    st.reverse.foldl (Utils.normStep abs) [] = st := by
  obtain ⟨hok, reals, dds, hst, hdd, hre, habs⟩ := hsh
  subst hst
  rw [List.reverse_append, List.foldl_append]
  rw [foldl_normStep_dds dds.reverse (fun x hx => hdd x (List.mem_reverse.mp hx))
    (fun h => by
      cases habsv : abs with
      | false => rfl
      | true => exact absurd (habs habsv) (by simpa using h)) []
    (by simp)]
  rw [List.append_nil, List.reverse_reverse]
  rw [foldl_normStep_reals reals.reverse (fun x hx => ⟨hok x (by
      rw [List.mem_append]
      exact Or.inl (List.mem_reverse.mp hx)), hre x (List.mem_reverse.mp hx)⟩) dds]
  rw [List.reverse_reverse]

theorem join_rev_ne_nil {st : List (List Char)} (hok : ∀ x ∈ st, SegOk x)
    (hne : st ≠ []) : joinSegs st.reverse ≠ [] := by
  obtain ⟨z, zs, hzw⟩ : ∃ z zs, st.reverse = z :: zs := by
    cases hw : st.reverse with
    | nil => exact absurd (by simpa using hw) hne
    | cons a b => exact ⟨a, b, rfl⟩
  rw [hzw]
  exact joinSegs_ne_nil (hok z (List.mem_reverse.mp (hzw ▸ List.mem_cons_self z zs))).1

theorem join_rev_head {st : List (List Char)} (hok : ∀ x ∈ st, SegOk x)
    (hne : st ≠ []) :
    ∃ c, (joinSegs st.reverse).head? = some c ∧ c ≠ '/' := by
  obtain ⟨z, zs, hzw⟩ : ∃ z zs, st.reverse = z :: zs := by
    cases hw : st.reverse with
    | nil => exact absurd (by simpa using hw) hne
    | cons a b => exact ⟨a, b, rfl⟩
  have hzok : SegOk z := hok z (List.mem_reverse.mp (hzw ▸ List.mem_cons_self z zs))
  obtain ⟨c, hc, hcm⟩ := exists_head_mem hzok.1
  exact ⟨c, by rw [hzw, joinSegs_head hzok.1]; exact hc,
    fun hcc => hzok.2.2 (hcc ▸ hcm)⟩

theorem join_rev_last {st : List (List Char)} (hok : ∀ x ∈ st, SegOk x)
    (hne : st ≠ []) :
    ∃ c, (joinSegs st.reverse).getLast? = some c ∧ c ≠ '/' := by
  obtain ⟨y, ys, hyst⟩ : ∃ y ys, st = y :: ys := by
    cases hw : st with
    | nil => exact absurd hw hne
    | cons a b => exact ⟨a, b, rfl⟩
  have hyok : SegOk y := hok y (hyst ▸ List.mem_cons_self y ys)
  obtain ⟨c, hc, hcm⟩ := exists_getLast_mem hyok.1
  refine ⟨c, ?_, fun hcc => hyok.2.2 (hcc ▸ hcm)⟩
  rw [hyst, List.reverse_cons, joinSegs_getLast hyok.1 ys.reverse]
  exact hc

theorem split_join_rev {st : List (List Char)} (hok : ∀ x ∈ st, SegOk x)
    (hne : st ≠ []) : splitSlash (joinSegs st.reverse) = st.reverse :=
  splitSlash_joinSegs (by simpa using hne)
    fun x hx => (hok x (List.mem_reverse.mp hx)).2.2

theorem foldl_skip_front (abs : Bool) (l : List (List Char)) :
    List.foldl (Utils.normStep abs) [] ([] :: l) =
      List.foldl (Utils.normStep abs) [] l := by
  rw [List.foldl_cons, normStep_skip (Or.inl rfl)]

theorem foldl_skip_back (abs : Bool) (l : List (List Char))
    (init : List (List Char)) :
    List.foldl (Utils.normStep abs) init (l ++ [[]]) =
      List.foldl (Utils.normStep abs) init l := by
  rw [List.foldl_append]
  simp [normStep_skip (Or.inl rfl)]

theorem normalize_render_fixed (abs trail : Bool) (st : List (List Char))
    (hsh : StackShape abs st) (hne : st ≠ []) :
    Utils.normalize_path
        ((if abs then ['/'] else []) ++ joinSegs st.reverse ++
          (if trail then ['/'] else [])) =
      (if abs then ['/'] else []) ++ joinSegs st.reverse ++
        (if trail then ['/'] else []) := by
  have hok : ∀ x ∈ st, SegOk x := hsh.1
  have hJne : joinSegs st.reverse ≠ [] := join_rev_ne_nil hok hne
  obtain ⟨hc, hJhead, hcne⟩ := join_rev_head hok hne
  obtain ⟨lc, hJlast, hlcne⟩ := join_rev_last hok hne
  have hsplitJ := split_join_rev hok hne
  set J := joinSegs st.reverse with hJdef
  obtain ⟨j, jt, hJc⟩ : ∃ j jt, J = j :: jt := by
    cases hv : J with
    | nil => exact absurd hv hJne
    | cons a b => exact ⟨a, b, rfl⟩
  have hjc : j = hc := by rw [hJc] at hJhead; simpa using hJhead
  cases abs with
  | false =>
    have habs : ∀ q : List Char, q.head? = some hc →
        decide (q.head? = some '/') = false := by
      intro q hq
      rw [decide_eq_false]
      rw [hq]
      simpa using hcne
    cases trail with
    | false =>
      show Utils.normalize_path (J ++ []) = J ++ []
      rw [List.append_nil]
      rw [normalize_eq J hJne]
      have hh : ¬ J.head? = some '/' := by rw [hJhead]; simpa using hcne
      have hfold : normStack J = st := by
        rw [normStack, habs J hJhead, hsplitJ]
        exact foldl_normStep_reverse hsh
      rw [hfold, if_neg hne, if_neg hh, if_neg]
      · simp
      · rintro ⟨hl, _⟩
        rw [hJlast] at hl
        exact hlcne (by simpa using hl)
    | true =>
      show Utils.normalize_path (J ++ ['/']) = J ++ ['/']
      rw [normalize_eq (J ++ ['/']) (by simp)]
      have hqhead : (J ++ ['/']).head? = some hc := by
        rw [List.head?_append_of_ne_nil J hJne, hJhead]
      have hh : ¬ (J ++ ['/']).head? = some '/' := by
        rw [hqhead]; simpa using hcne
      have hfold : normStack (J ++ ['/']) = st := by
        rw [normStack, habs _ hqhead, splitSlash_append_last_slash, hsplitJ,
          foldl_skip_back]
        exact foldl_normStep_reverse hsh
      have hlast : (J ++ ['/']).getLast? = some '/' := by
        have : J ++ ['/'] = J ++ '/' :: [] := rfl
        rw [this, List.getLast?_append_cons]
        rfl
      have hnsl : J ++ ['/'] ≠ ['/'] := by
        rw [hJc]
        intro hcontra
        have := congrArg List.length hcontra
        simp at this
      rw [hfold, if_neg hne, if_neg hh, if_pos ⟨hlast, hnsl⟩]
      rfl
  | true =>
    have hdd : st.reverse.foldl (Utils.normStep true) [] = st :=
      foldl_normStep_reverse hsh
    cases trail with
    | false =>
      show Utils.normalize_path (('/' :: J) ++ []) = ('/' :: J) ++ []
      rw [List.append_nil]
      rw [normalize_eq ('/' :: J) (by simp)]
      have hfold : normStack ('/' :: J) = st := by
        rw [normStack]
        have : decide (('/' :: J).head? = some '/') = true := by simp
        rw [this, splitSlash_cons_slash, hsplitJ, foldl_skip_front]
        exact hdd
      have hlast : ('/' :: J).getLast? = some lc := by
        have : ('/' :: J) = ['/'] ++ J := rfl
        rw [this, List.getLast?_append_of_ne_nil _ hJne, hJlast]
      rw [hfold, if_neg hne,
        if_pos (show ('/' :: J).head? = some '/' from rfl), if_neg]
      · rw [List.append_nil]
        exact rfl
      · rintro ⟨hl, _⟩
        rw [hlast] at hl
        exact hlcne (by simpa using hl)
    | true =>
      show Utils.normalize_path ('/' :: (J ++ ['/'])) = '/' :: (J ++ ['/'])
      rw [normalize_eq ('/' :: (J ++ ['/'])) (by simp)]
      have hfold : normStack ('/' :: (J ++ ['/'])) = st := by
        rw [normStack]
        have : decide (('/' :: (J ++ ['/'])).head? = some '/') = true := by simp
        rw [this, splitSlash_cons_slash, splitSlash_append_last_slash, hsplitJ,
          foldl_skip_front, foldl_skip_back]
        exact hdd
      have hlast : ('/' :: (J ++ ['/'])).getLast? = some '/' := by
        have : '/' :: (J ++ ['/']) = ('/' :: J) ++ '/' :: [] := rfl
        rw [this, List.getLast?_append_cons]
        rfl
      have hnsl : '/' :: (J ++ ['/']) ≠ ['/'] := by
        rw [hJc]
        intro hcontra
        have := congrArg List.length hcontra
        simp at this
      rw [hfold, if_neg hne,
        if_pos (show ('/' :: (J ++ ['/'])).head? = some '/' from rfl),
        if_pos ⟨hlast, hnsl⟩]
      rfl

/-- C6: `Utils::normalize_path` is idempotent.  When the segment stack
empties the output is one of `.`, `./`, `/`, `//`, each a fixed point;
otherwise the output is a rendered well-shaped stack, which re-splits and
re-folds to itself. -/
theorem c6_normalize_idempotent (p : List Char) :
    Utils.normalize_path (Utils.normalize_path p) = Utils.normalize_path p := by
  by_cases hp : p = []
  · subst hp; rfl
  · rw [normalize_eq p hp]
    by_cases hst : normStack p = []
    · rw [if_pos hst]
      by_cases habs : p.head? = some '/'
      · by_cases htr : (p.getLast? = some '/' ∧ p ≠ ['/'])
        · rw [if_pos habs, if_pos habs, if_pos htr]; decide
        · rw [if_pos habs, if_pos habs, if_neg htr]; decide
      · by_cases htr : (p.getLast? = some '/' ∧ p ≠ ['/'])
        · rw [if_neg habs, if_neg habs, if_pos htr]; decide
        · rw [if_neg habs, if_neg habs, if_neg htr]; decide
    · rw [if_neg hst]
      have hshape := normStack_shape p
      by_cases habs : p.head? = some '/'
      · have hb : decide (p.head? = some '/') = true := by simp [habs]
        rw [hb] at hshape
        by_cases htr : (p.getLast? = some '/' ∧ p ≠ ['/'])
        · rw [if_pos habs, if_pos htr]
          exact normalize_render_fixed true true _ hshape hst
        · rw [if_pos habs, if_neg htr]
          exact normalize_render_fixed true false _ hshape hst
      · have hb : decide (p.head? = some '/') = false := by
          rw [decide_eq_false habs]
        rw [hb] at hshape
        by_cases htr : (p.getLast? = some '/' ∧ p ≠ ['/'])
        · rw [if_neg habs, if_pos htr]
          exact normalize_render_fixed false true _ hshape hst
        · rw [if_neg habs, if_neg htr]
          exact normalize_render_fixed false false _ hshape hst

/-! ## Lemmas: double-slash prefixes, with-revalidation, Utils.stripTrail -/

theorem startsDD_iff {s : List Char} : startsDD s ↔ ∃ t, s = '/' :: '/' :: t := by
  unfold startsDD
  rcases s with _ | ⟨a, _ | ⟨b, t⟩⟩
  · simp
  · simp
  · constructor
    · intro h
      simp only [List.take, List.cons.injEq] at h
      exact ⟨t, by rw [h.1, h.2.1]⟩
    · rintro ⟨t2, ht⟩
      cases ht
      rfl

theorem not_startsDD_slash : ¬ startsDD ['/'] := by decide

theorem startsDD_of_take {l : List Char} {n : Nat} (h : startsDD (l.take n)) :
    startsDD l := by
  rw [startsDD_iff] at h ⊢
  obtain ⟨t, ht⟩ := h
  rcases l with _ | ⟨a, _ | ⟨b, r⟩⟩
  · simp at ht
  · rcases n with _ | n <;> simp at ht
  · rcases n with _ | ⟨_ | n⟩ <;> simp at ht
    exact ⟨r, by rw [ht.1, ht.2.1]⟩

theorem startsDD_mono {pre l : List Char} (h : pre <+: l) (hdd : startsDD pre) :
    startsDD l := by
  rw [startsDD_iff] at hdd ⊢
  obtain ⟨t, rfl⟩ := hdd
  obtain ⟨t2, rfl⟩ := h
  exact ⟨t ++ t2, rfl⟩

theorem referenceResolution_not_DD {s p : List Char} (h : ¬ startsDD p) :
    ¬ startsDD (referenceResolution s p) := by
  unfold referenceResolution
  split_ifs with h1 h2 h3
  · exact not_startsDD_slash
  · exact h
  · intro hdd
    rw [startsDD_iff] at hdd
    obtain ⟨t, ht⟩ := hdd
    apply h3
    rw [List.cons.injEq] at ht
    rw [ht.2]
    rfl
  · exact h

theorem schemeFix_of_ne {s : List Char} (h : s ≠ []) : schemeFix s false = s := by
  unfold schemeFix
  rw [if_neg (by simp [h])]

theorem new_isOk {s a p q f : List Char} (hs : s ≠ [])
    (hpat : schemePattern (lowerStr s))
    (h1 : a ≠ [] → p = [] ∨ p.head? = some '/') (h2 : a = [] → ¬ startsDD p) :
    ∃ v, URI.new s a p q f = .ok v := by
  have hp2head : a ≠ [] → referenceResolution s p = [] ∨
      (referenceResolution s p).head? = some '/' := by
    intro ha
    by_cases hsp : s = "https".toList ∨ s = "http".toList ∨ s = "file".toList
    · right
      exact (referenceResolution_special (by tauto)).2
    · rw [referenceResolution_not_special (by tauto)]
      exact h1 ha
  have hp2dd : a = [] → ¬ startsDD (referenceResolution s p) := fun ha =>
    referenceResolution_not_DD (h2 ha)
  have hval : validateUri ⟨s, a, referenceResolution s p, q, f⟩ false = .ok () := by
    rw [validateUri_ok_iff]
    refine ⟨fun _ => hpat, fun hp ha => ?_, fun hp ha => hp2dd ha⟩
    rcases hp2head ha with h | h
    · exact absurd h hp
    · exact h
  refine ⟨⟨s, a, referenceResolution s p, q, f⟩, ?_⟩
  simp only [URI.new, schemeFix_of_ne hs]
  rw [hval]
  rfl

theorem with_path_isOk {u : URI} (hinv : ConstructedInv u) {pnew : List Char}
    (h1 : u.authority ≠ [] → pnew = [] ∨ pnew.head? = some '/')
    (h2 : u.authority = [] → ¬ startsDD pnew) :
    ∃ v, u.with { path := some pnew } = .ok v := by
  simp only [URI.with]
  split_ifs with heq
  · exact ⟨u, rfl⟩
  · simp only [Option.getD]
    exact new_isOk hinv.1 hinv.2.1 h1 h2

theorem Utils.stripTrailRev_suffix {r : List Char} (h : r ≠ []) :
    Utils.stripTrailRev r ≠ [] ∧ Utils.stripTrailRev r <:+ r := by
  induction r with
  | nil => exact absurd rfl h
  | cons c rest ih =>
    have hstep : Utils.stripTrailRev (c :: rest) =
        if c = '/' ∧ rest ≠ [] then Utils.stripTrailRev rest else c :: rest := rfl
    rw [hstep]
    split_ifs with hcr
    · obtain ⟨h1, h2⟩ := ih hcr.2
      exact ⟨h1, h2.trans (List.suffix_cons c rest)⟩
    · exact ⟨by simp, List.suffix_refl _⟩

theorem Utils.stripTrail_front {p : List Char} (h : p ≠ []) :
    Utils.stripTrail p ≠ [] ∧ Utils.stripTrail p <+: p := by
  have hr : p.reverse ≠ [] := by simpa using h
  obtain ⟨h1, h2⟩ := Utils.stripTrailRev_suffix hr
  constructor
  · unfold Utils.stripTrail
    simpa using h1
  · unfold Utils.stripTrail
    have := h2.reverse
    simpa using this

theorem Utils.stripTrail_head {p : List Char} (h : p ≠ []) :
    (Utils.stripTrail p).head? = p.head? := by
  obtain ⟨h1, hpre⟩ := Utils.stripTrail_front h
  obtain ⟨t, ht⟩ := hpre
  conv_rhs => rw [← ht]
  rw [List.head?_append_of_ne_nil _ h1]

theorem Utils.stripTrail_not_DD {p : List Char} (hp : p ≠ []) (h : ¬ startsDD p) :
    ¬ startsDD (Utils.stripTrail p) := by
  intro hdd
  exact h (startsDD_mono (Utils.stripTrail_front hp).2 hdd)

theorem rIdxOf_some_of_mem {c : Char} {s : List Char} (h : c ∈ s) :
    ∃ i, rIdxOf c s = some i := by
  induction s with
  | nil => simp at h
  | cons a t ih =>
    unfold rIdxOf
    cases hr : rIdxOf c t with
    | some i => exact ⟨i + 1, rfl⟩
    | none =>
      rcases List.mem_cons.mp h with h | h
      · exact ⟨0, by rw [if_pos h.symm]⟩
      · obtain ⟨i, hi⟩ := ih h
        rw [hi] at hr
        cases hr

theorem head_mem {l : List Char} {c : Char} (h : l.head? = some c) : c ∈ l := by
  cases l with
  | nil => simp at h
  | cons a t =>
    simp only [List.head?_cons, Option.some.injEq] at h
    exact h ▸ List.mem_cons_self a t

/-- C10 part: `dirname` never returns an error for a constructed URI. -/
theorem dirname_isOk {u : URI} (hinv : ConstructedInv u) :
    ∃ v, Utils.dirname u = .ok v := by
  simp only [Utils.dirname]
  split_ifs with h0
  · exact ⟨u, rfl⟩
  · push_neg at h0
    obtain ⟨hpne, hpslash⟩ := h0
    have hstne : Utils.stripTrail u.path ≠ [] := (Utils.stripTrail_front hpne).1
    by_cases ha : u.authority = []
    · -- no authority: only the double-slash start can invalidate
      have hnd : ¬ startsDD u.path := hinv.2.2.2.1 ha
      have hnd2 : ¬ startsDD (Utils.stripTrail u.path) := Utils.stripTrail_not_DD hpne hnd
      cases hr : rIdxOf '/' (Utils.stripTrail u.path) with
      | none =>
        refine with_path_isOk hinv (fun hc => absurd ha hc) fun _ => ?_
        simp [startsDD]
      | some i =>
        cases i with
        | zero =>
          exact with_path_isOk hinv (fun hc => absurd ha hc)
            fun _ => not_startsDD_slash
        | succ n =>
          refine with_path_isOk hinv (fun hc => absurd ha hc) fun _ => ?_
          intro hdd
          exact hnd2 (startsDD_of_take hdd)
    · -- authority present: the path keeps its leading slash
      have hhead : u.path.head? = some '/' := by
        rcases hinv.2.2.1 ha with h | h
        · exact absurd h hpne
        · exact h
      have hsthead : (Utils.stripTrail u.path).head? = some '/' :=
        (Utils.stripTrail_head hpne).trans hhead
      obtain ⟨i, hi⟩ := rIdxOf_some_of_mem (head_mem hsthead)
      rw [hi]
      cases i with
      | zero =>
        exact with_path_isOk hinv (fun _ => Or.inr rfl) fun hc => absurd hc ha
      | succ n =>
        refine with_path_isOk hinv (fun _ => Or.inr ?_) fun hc => absurd hc ha
        cases hst : Utils.stripTrail u.path with
        | nil => exact absurd hst hstne
        | cons a t =>
          rw [hst] at hsthead
          simp only [List.head?_cons, Option.some.injEq] at hsthead
          subst hsthead
          simp

/-! ## Lemmas: resolve_path never errors -/

theorem normalize_abs_form (p : List Char) (hp : p ≠ []) (hh : p.head? = some '/') :
    Utils.normalize_path p = ['/'] ∨ Utils.normalize_path p = ['/', '/'] ∨
      ∃ J lc, J ≠ [] ∧ ¬ J.head? = some '/' ∧ J.getLast? = some lc ∧ lc ≠ '/' ∧
        (Utils.normalize_path p = '/' :: J ∨
          Utils.normalize_path p = '/' :: (J ++ ['/'])) := by
  rw [normalize_eq p hp, if_pos hh, if_pos hh]
  by_cases hst : normStack p = []
  · rw [if_pos hst]
    by_cases htr : (p.getLast? = some '/' ∧ p ≠ ['/'])
    · rw [if_pos htr]
      exact Or.inr (Or.inl rfl)
    · rw [if_neg htr]
      exact Or.inl rfl
  · rw [if_neg hst]
    have hshape := normStack_shape p
    rw [(by simp [hh] : decide (p.head? = some '/') = true)] at hshape
    have hok := hshape.1
    have hJne := join_rev_ne_nil hok hst
    obtain ⟨hc, hJh, hcne⟩ := join_rev_head hok hst
    obtain ⟨lc, hJl, hlcne⟩ := join_rev_last hok hst
    refine Or.inr (Or.inr ⟨joinSegs (normStack p).reverse, lc, hJne, ?_, hJl, hlcne, ?_⟩)
    · rw [hJh]
      simpa using hcne
    · by_cases htr : (p.getLast? = some '/' ∧ p ≠ ['/'])
      · rw [if_pos htr]
        exact Or.inr rfl
      · rw [if_neg htr, List.append_nil]
        exact Or.inl rfl

theorem getLast_tail {l : List (List Char)} (h : 1 < l.length) :
    l.tail.getLast? = l.getLast? := by
  rcases l with _ | ⟨a, _ | ⟨b, t⟩⟩
  · simp at h
  · simp at h
  · rw [List.tail_cons, List.getLast?_cons_cons]

theorem resolveStep_keep {st : List (List Char)} (hne : st ≠ []) (seg : List Char) :
    Utils.resolveStep st seg ≠ [] ∧
      (Utils.resolveStep st seg).getLast? = st.getLast? := by
  unfold Utils.resolveStep
  split_ifs with h1 h2 h3
  · exact ⟨hne, rfl⟩
  · constructor
    · rcases st with _ | ⟨a, _ | ⟨b, t⟩⟩
      · simp at h3
      · simp at h3
      · simp
    · exact getLast_tail h3
  · exact ⟨hne, rfl⟩
  · refine ⟨by simp, ?_⟩
    rcases st with _ | ⟨a, t⟩
    · exact absurd rfl hne
    · rw [List.getLast?_cons_cons]

theorem foldl_resolveStep_keep (segs : List (List Char)) :
    ∀ st, st ≠ [] → segs.foldl Utils.resolveStep st ≠ [] ∧
      (segs.foldl Utils.resolveStep st).getLast? = st.getLast? := by
  induction segs with
  | nil => intro st h; exact ⟨h, rfl⟩
  | cons seg rest ih =>
    intro st h
    rw [List.foldl_cons]
    obtain ⟨h1, h2⟩ := resolveStep_keep h seg
    obtain ⟨h3, h4⟩ := ih _ h1
    exact ⟨h3, h4.trans h2⟩

theorem resolveOne_head {r p : List Char} (hr : r.head? = some '/') :
    (Utils.resolveOne r p).head? = some '/' := by
  by_cases h1 : p.head? = some '/'
  · unfold Utils.resolveOne
    rw [if_pos h1]
    exact h1
  · have heq : Utils.resolveOne r p =
        (if joinSegs ((splitSlash p).foldl Utils.resolveStep
            (splitSlash r).reverse).reverse = [] then ['/']
          else joinSegs ((splitSlash p).foldl Utils.resolveStep
            (splitSlash r).reverse).reverse) := by
      unfold Utils.resolveOne
      rw [if_neg h1]
    rw [heq]
    split_ifs with h2
    · rfl
    · obtain ⟨r2, rfl⟩ : ∃ r2, r = '/' :: r2 := by
        cases r with
        | nil => simp at hr
        | cons a t =>
          simp only [List.head?_cons, Option.some.injEq] at hr
          exact ⟨t, by rw [hr]⟩
      rw [splitSlash_cons_slash, List.reverse_cons] at h2 ⊢
      have hinit : (splitSlash r2).reverse ++ [[]] ≠ [] := by simp
      obtain ⟨hne, hlast⟩ := foldl_resolveStep_keep (splitSlash p) _ hinit
      have hlast2 : ((splitSlash p).foldl Utils.resolveStep
          ((splitSlash r2).reverse ++ [[]])).getLast? = some [] := by
        rw [hlast]
        have : ((splitSlash r2).reverse ++ [[]] : List (List Char)) =
            (splitSlash r2).reverse ++ [] :: [] := rfl
        rw [this, List.getLast?_append_cons]
        rfl
      set rsegs := (splitSlash p).foldl Utils.resolveStep ((splitSlash r2).reverse ++ [[]])
      have hrevhead : rsegs.reverse.head? = some [] := by
        rw [List.head?_reverse]
        exact hlast2
      obtain ⟨tt, htt⟩ : ∃ tt, rsegs.reverse = [] :: tt := by
        cases hv : rsegs.reverse with
        | nil => rw [hv] at hrevhead; simp at hrevhead
        | cons a t =>
          rw [hv] at hrevhead
          simp only [List.head?_cons, Option.some.injEq] at hrevhead
          exact ⟨t, by rw [hrevhead]⟩
      rw [htt] at h2 ⊢
      cases tt with
      | nil => exact absurd rfl h2
      | cons t ts =>
        rw [joinSegs_cons2]
        rfl

theorem foldl_resolveOne_head (ps : List (List Char)) :
    ∀ r, r.head? = some '/' → (ps.foldl Utils.resolveOne r).head? = some '/' := by
  induction ps with
  | nil => intro r h; exact h
  | cons p rest ih =>
    intro r h
    rw [List.foldl_cons]
    exact ih _ (resolveOne_head h)

theorem not_DD_of_head {J : List Char} (h : ¬ J.head? = some '/') :
    ¬ startsDD J := by
  intro hdd
  rw [startsDD_iff] at hdd
  obtain ⟨t, rfl⟩ := hdd
  exact h rfl

theorem not_DD_cons_of_head {J : List Char} (h : ¬ J.head? = some '/') :
    ¬ startsDD ('/' :: J) := by
  intro hdd
  rw [startsDD_iff] at hdd
  obtain ⟨t, ht⟩ := hdd
  rw [List.cons.injEq] at ht
  exact h (by rw [ht.2]; rfl)

/-- C10 part: `resolve_path` never returns an error for a constructed URI. -/
theorem resolve_isOk {u : URI} (hinv : ConstructedInv u) (ps : List (List Char)) :
    ∃ v, Utils.resolve_path u ps = .ok v := by
  simp only [Utils.resolve_path]
  have hbh : (if u.path.head? = some '/' then u.path else '/' :: u.path).head? =
      some '/' := by
    split_ifs with h
    · exact h
    · rfl
  have hrh := foldl_resolveOne_head ps _ hbh
  set result := ps.foldl Utils.resolveOne
    (if u.path.head? = some '/' then u.path else '/' :: u.path) with hres
  have hrne : result ≠ [] := by
    intro h
    rw [h] at hrh
    simp at hrh
  rcases normalize_abs_form result hrne hrh with hN | hN |
    ⟨J, lc, hJne, hJh, hJl, hlcne, hN⟩
  · rw [hN]
    split_ifs with hc1 hc2 hc3 <;>
      first
        | exact with_path_isOk hinv (fun hc => absurd hc1.2.1 hc) (fun _ => by simp [startsDD])
        | exact with_path_isOk hinv (fun _ => Or.inr rfl) (fun _ => not_startsDD_slash)
        | simp_all
  · rw [hN]
    split_ifs with hc1 hc2 hc3 hc4 <;>
      first
        | exact with_path_isOk hinv (fun hc => absurd hc1.2.1 hc) (fun _ => not_startsDD_slash)
        | exact with_path_isOk hinv (fun _ => Or.inr rfl) (fun _ => not_startsDD_slash)
        | simp_all
  · rcases hN with hN | hN
    · rw [hN]
      have htail : ('/' :: J).tail = J := rfl
      have hlastJ : ¬ (1 < J.length ∧ J.getLast? = some '/') := by
        rintro ⟨_, hl⟩
        rw [hJl] at hl
        exact hlcne (by simpa using hl)
      have hlastC : ¬ (1 < ('/' :: J).length ∧ ('/' :: J).getLast? = some '/') := by
        rintro ⟨hlen, hl⟩
        have : ('/' :: J).getLast? = J.getLast? := by
          have : ('/' :: J) = ['/'] ++ J := rfl
          rw [this, List.getLast?_append_of_ne_nil _ hJne]
        rw [this, hJl] at hl
        exact hlcne (by simpa using hl)
      split_ifs with hc1 hc2 hc3 hc4 <;>
        first
          | exact with_path_isOk hinv (fun hc => absurd hc1.2.1 hc) (fun _ => not_DD_of_head hJh)
          | exact with_path_isOk hinv (fun _ => Or.inr rfl) (fun _ => not_DD_cons_of_head hJh)
          | simp_all
    · rw [hN]
      have hne2 : '/' :: (J ++ ['/']) ≠ ['/'] := by
        intro h
        have := congrArg List.length h
        simp at this
      have htail : ('/' :: (J ++ ['/'])).tail = J ++ ['/'] := rfl
      have hJlen : 1 ≤ J.length := by
        cases hv : J with
        | nil => exact absurd hv hJne
        | cons a t => simp
      have hdropJ : (J ++ ['/']).dropLast = J := by
        simp
      have hstripT : (1 < (J ++ ['/']).length ∧ (J ++ ['/']).getLast? = some '/') := by
        constructor
        · simp only [List.length_append, List.length_singleton]
          omega
        · have : (J ++ ['/'] : List Char) = J ++ '/' :: [] := rfl
          rw [this, List.getLast?_append_cons]
          rfl
      have hstripC : (1 < ('/' :: (J ++ ['/'])).length ∧
          ('/' :: (J ++ ['/'])).getLast? = some '/') := by
        constructor
        · simp
        · have : ('/' :: (J ++ ['/'])) = ('/' :: J) ++ '/' :: [] := rfl
          rw [this, List.getLast?_append_cons]
          rfl
      have hdropC : ('/' :: (J ++ ['/'])).dropLast = '/' :: J := by
        show (('/' :: J) ++ ['/']).dropLast = '/' :: J
        exact List.dropLast_concat
      split_ifs with hc1 hc2 hc3 hc4 <;>
        first
          | (rw [htail] at *; rw [hdropJ]
             exact with_path_isOk hinv (fun hc => absurd hc1.2.1 hc)
               (fun _ => not_DD_of_head hJh))
          | (rw [hdropC]
             exact with_path_isOk hinv (fun _ => Or.inr rfl)
               (fun _ => not_DD_cons_of_head hJh))
          | simp_all

/-! ## C4: the graceful percent decoder -/

/-- C4: the graceful percent-decode is total (it is a terminating function
returning a value for every input): a string with no `%XX` match is
returned unchanged by `percent_decode`, and whenever the `%`-escape run
does not decode as valid UTF-8 the decoder emits the first 3 characters
literally and recurses on the remainder. -/
theorem c4_graceful_decode_total :
    (∀ s : List Char, hasRun s = false → percentDecode s = s) ∧
    (∀ s : List Char, ¬ s.length < 3 →
      utf8Decode (pctDecodeBytes (strBytes s)) = none →
      decodeUriComponentGraceful s = s.take 3 ++ decodeUriComponentGraceful (s.drop 3)) := by
  constructor
  · intro s h
    simp [percentDecode, h]
  · intro s h1 h2
    conv_lhs => rw [decodeUriComponentGraceful]
    simp [h1, h2]

/-- Witness for C4 at concrete inputs: a run-free string is unchanged, and
the malformed run `%C3%28` (the bytes `0xC3 0x28` are not valid UTF-8) is
split after its first three characters. -/
theorem c4_graceful_decode_total_witness :
    percentDecode "abc".toList = "abc".toList ∧
      decodeUriComponentGraceful "%C3%28".toList =
        "%C3%28".toList.take 3 ++ decodeUriComponentGraceful ("%C3%28".toList.drop 3) :=
  ⟨c4_graceful_decode_total.1 _ (by decide),
   c4_graceful_decode_total.2 _ (by decide) (by decide)⟩

/-! ## C3: the fs-path round-trip -/

theorem referenceResolution_slash {s p : List Char} (hp : p.head? = some '/') :
    referenceResolution s p = p := by
  have hpne : p ≠ [] := by intro h; rw [h] at hp; simp at hp
  unfold referenceResolution
  split_ifs with h1 h2 h3 <;> first | rfl | exact absurd h2 hpne | exact absurd hp h3

theorem lowerChar_of_lower {c : Char} (h : isAsciiLowerAlpha c) : lowerChar c = c := by
  unfold lowerChar
  rw [if_neg]
  intro hu
  obtain ⟨h1, h2⟩ := h
  obtain ⟨h3, h4⟩ := hu
  omega

theorem firstIdxOf_append_right {host rest : List Char} (h : '/' ∉ host) :
    firstIdxOf '/' (host ++ '/' :: rest) = some host.length := by
  induction host with
  | nil => simp [firstIdxOf]
  | cons c t ih =>
    have hc : c ≠ '/' := fun hc => h (hc ▸ List.mem_cons_self c t)
    have ht : '/' ∉ t := fun hm => h (List.mem_cons_of_mem c hm)
    show (if c = '/' then some 0
      else (firstIdxOf '/' (t ++ '/' :: rest)).map (· + 1)) = some (t.length + 1)
    rw [if_neg hc, ih ht]
    rfl

theorem fileSplit_default {q : List Char} (h : ¬ startsDD q) :
    fileSplit q = ([], q) := by
  unfold fileSplit
  split
  · rename_i rest
    exact absurd rfl h
  · rfl

theorem fileSplit_unc {host rest : List Char} (hh : host ≠ []) (hm : '/' ∉ host)
    (hr : rest ≠ []) :
    fileSplit ('/' :: '/' :: (host ++ '/' :: rest)) = (host, '/' :: rest) := by
  have hidx : firstIdxOf '/' (host ++ '/' :: rest) = some host.length :=
    firstIdxOf_append_right hm
  have hrl : 0 < rest.length := List.length_pos.mpr hr
  have hhl : 0 < host.length := List.length_pos.mpr hh
  have hlen : ('/' :: '/' :: (host ++ '/' :: rest)).length =
      host.length + rest.length + 3 := by
    simp [List.length_append]
    omega
  have h1 : ¬ (host.length + 2 = 2) := by omega
  have h2 : host.length + 2 < ('/' :: '/' :: (host ++ '/' :: rest)).length := by
    rw [hlen]; omega
  simp only [fileSplit, hidx]
  rw [if_neg h1, if_pos h2]
  have htake : (host ++ '/' :: rest).take (host.length + 2 - 2) = host := by
    simp [List.take_left]
  have hdrop : ('/' :: '/' :: (host ++ '/' :: rest)).drop (host.length + 2) =
      '/' :: rest := by
    show (host ++ '/' :: rest).drop host.length = '/' :: rest
    exact List.drop_left host ('/' :: rest)
  rw [htake, hdrop]

theorem new_file_of_slash {a p : List Char} (hp : p.head? = some '/')
    (hdd : a = [] → ¬ startsDD p) :
    URI.new "file".toList a p [] [] = .ok ⟨"file".toList, a, p, [], []⟩ := by
  have hrr : referenceResolution "file".toList p = p := referenceResolution_slash hp
  have hval : validateUri ⟨"file".toList, a, p, [], []⟩ false = .ok () := by
    rw [validateUri_ok_iff]
    refine ⟨fun _ => ?_, fun _ _ => hp, fun _ ha => hdd ha⟩
    show schemePattern (lowerStr "file".toList)
    decide
  simp only [URI.new, schemeFix_of_ne (show "file".toList ≠ [] by decide)]
  rw [hrr, hval]
  rfl

theorem fsValue_abs {q : List Char} (h : wfNativeAbs q) :
    uriToFsPath false ⟨"file".toList, [], q, [], []⟩ false = percentDecode q := by
  obtain ⟨hh, h2⟩ := h
  obtain ⟨t, rfl⟩ : ∃ t, q = '/' :: t := by
    cases q with
    | nil => simp at hh
    | cons a s =>
      simp only [List.head?_cons, Option.some.injEq] at hh
      exact ⟨s, by rw [hh]⟩
  cases t with
  | nil => rfl
  | cons c t2 =>
    cases t2 with
    | nil => rfl
    | cons e t3 =>
      by_cases he : e = ':'
      · subst he
        have halpha : ¬ (isAsciiUpperAlpha c ∨ isAsciiLowerAlpha c) := by
          intro hup
          have hca : isAsciiAlpha c := by
            cases hup with
            | inl hu => exact Or.inr hu
            | inr hl => exact Or.inl hl
          exact (h2 c rfl).2.2 hca rfl
        simp [uriToFsPath, halpha]
      · simp [uriToFsPath]
        congr 1
        split
        · rename_i d rest heq
          injection heq with h1 heq
          injection heq with h2' heq
          injection heq with h3 heq
          first
          | exact absurd h3 he
          | exact absurd h3.symm he
        · rfl

theorem fsValue_drive {d : Char} {rest : List Char} (hd : isAsciiLowerAlpha d) :
    uriToFsPath false ⟨"file".toList, [], '/' :: d :: ':' :: rest, [], []⟩ false =
      percentDecode (d :: ':' :: rest) := by
  simp [uriToFsPath, Or.inr hd, lowerChar_of_lower hd]

theorem fsValue_unc {host rest : List Char} (hh : host ≠ []) (hr : rest ≠ []) :
    uriToFsPath false ⟨"file".toList, host, '/' :: rest, [], []⟩ false =
      percentDecode ('/' :: '/' :: (host ++ '/' :: rest)) := by
  have hlen : 1 < ('/' :: rest).length := by
    simp only [List.length_cons]
    have := List.length_pos.mpr hr
    omega
  simp [uriToFsPath, hh, hlen, List.length_pos.mpr hr]

theorem file_win_eq (win : Bool) (p : List Char) :
    URI.file win p = URI.file false (if win then replaceChar '\\' ['/'] p else p) := by
  cases win <;> rfl

theorem fsPath_win_eq (win : Bool) (u : URI) :
    uriToFsPath win u false =
      if win then replaceChar '/' ['\\'] (uriToFsPath false u false)
      else uriToFsPath false u false := by
  cases win <;> rfl

theorem fsPath_file_posix {q : List Char} (hnp : noPercent q)
    (h : wfNativeAbs q ∨ wfNativeDrive q ∨ wfNativeUNC q) :
    (URI.file false q).map (fun u => uriToFsPath false u false) = .ok q := by
  have hpd : percentDecode q = q := percentDecode_of_noPercent hnp
  rcases h with habs | hdrive | hunc
  · obtain ⟨hh, h2⟩ := habs
    have hdd : ¬ startsDD q := by
      intro hq
      obtain ⟨t, ht⟩ := startsDD_iff.mp hq
      exact ((h2 '/' (by rw [ht]; rfl)).1) rfl
    have hdrv : ¬ (2 ≤ q.length ∧ q.get? 1 = some ':') := by
      rintro ⟨hl, hg⟩
      exact ((h2 ':' hg).2.1) rfl
    have hfile : URI.file false q = .ok ⟨"file".toList, [], q, [], []⟩ := by
      simp only [URI.file, Bool.false_eq_true, if_false, fileSplit_default hdd]
      rw [if_neg hdrv]
      exact new_file_of_slash hh (fun _ => hdd)
    rw [hfile]
    show Except.ok (uriToFsPath false ⟨"file".toList, [], q, [], []⟩ false) =
      Except.ok q
    rw [fsValue_abs ⟨hh, h2⟩, hpd]
  · obtain ⟨d, rest, rfl, hd⟩ := hdrive
    have hne : d ≠ '/' := by
      rintro rfl
      exact absurd hd (by decide)
    have hdd : ¬ startsDD (d :: ':' :: rest) := by
      intro hq
      obtain ⟨t, ht⟩ := startsDD_iff.mp hq
      injection ht with ht _
      exact hne ht
    have hfile : URI.file false (d :: ':' :: rest) =
        .ok ⟨"file".toList, [], '/' :: d :: ':' :: rest, [], []⟩ := by
      simp only [URI.file, Bool.false_eq_true, if_false, fileSplit_default hdd]
      rw [if_pos (⟨by simp, rfl⟩ :
        2 ≤ (d :: ':' :: rest).length ∧ (d :: ':' :: rest).get? 1 = some ':')]
      rw [lowerChar_of_lower hd]
      refine new_file_of_slash rfl (fun _ hq => ?_)
      obtain ⟨t, ht⟩ := startsDD_iff.mp hq
      injection ht with _ ht
      injection ht with ht _
      exact hne ht
    rw [hfile]
    show Except.ok
      (uriToFsPath false ⟨"file".toList, [], '/' :: d :: ':' :: rest, [], []⟩ false) =
      Except.ok (d :: ':' :: rest)
    rw [fsValue_drive hd, hpd]
  · obtain ⟨host, rest, rfl, hh, hm, hr, hc⟩ := hunc
    have hrh : ('/' :: rest).get? 1 ≠ some ':' := by
      cases rest with
      | nil => simp
      | cons a t =>
        simp only [List.head?_cons, ne_eq, Option.some.injEq] at hc
        simpa using hc
    have hfile : URI.file false ('/' :: '/' :: (host ++ '/' :: rest)) =
        .ok ⟨"file".toList, host, '/' :: rest, [], []⟩ := by
      simp only [URI.file, Bool.false_eq_true, if_false, fileSplit_unc hh hm hr]
      rw [if_neg (by rintro ⟨_, hg⟩; exact hrh hg)]
      exact new_file_of_slash rfl (fun ha => absurd ha hh)
    rw [hfile]
    show Except.ok
      (uriToFsPath false ⟨"file".toList, host, '/' :: rest, [], []⟩ false) =
      Except.ok ('/' :: '/' :: (host ++ '/' :: rest))
    rw [fsValue_unc hh hr, hpd]

/-- C3 counterexample: the relative path `a/b` is the `fs_path` output of a
URI accepted by `URI::new`, but `file` applied to `a/b` wraps it into the
absolute path `/a/b` (the `reference_resolution` of the `file` scheme), so
`fs_path(file(p))` differs from `p` even up to separator normalization. -/
theorem c3_counterexample :
    URI.new "x".toList [] "a/b".toList [] [] = .ok c3URI ∧
    uriToFsPath false c3URI false = "a/b".toList ∧
    (URI.file false "a/b".toList).map (fun u => uriToFsPath false u false) =
      .ok "/a/b".toList ∧
    "/a/b".toList ≠ sepNormalize false "a/b".toList :=
  ⟨rfl, rfl, rfl, by decide⟩

/-- C3 (amended): the `fs_path ∘ file` round-trip does hold, up to
separator normalization, for native paths whose separator-normalized form
is percent-free and is slash-rooted (neither authority- nor drive-shaped),
lower-case-drive-rooted, or a well-formed UNC path — which covers the
well-formed absolute native paths as emitted by `fs_path`; relative paths,
which `fs_path` can also emit, are excluded (see the counterexample). -/
theorem c3_fs_path_roundtrip (win : Bool) (p : List Char) (h : wfNative win p) :
    (URI.file win p).map (fun u => uriToFsPath win u false) =
      .ok (sepNormalize win p) := by
  cases win
  · obtain ⟨hnp, hsh⟩ : noPercent p ∧
        (wfNativeAbs p ∨ wfNativeDrive p ∨ wfNativeUNC p) := h
    exact fsPath_file_posix hnp hsh
  · obtain ⟨hnp, hsh⟩ : noPercent (replaceChar '\\' ['/'] p) ∧
        (wfNativeAbs (replaceChar '\\' ['/'] p) ∨
          wfNativeDrive (replaceChar '\\' ['/'] p) ∨
          wfNativeUNC (replaceChar '\\' ['/'] p)) := h
    have hcore := fsPath_file_posix hnp hsh
    obtain ⟨u0, hu0⟩ : ∃ u0, URI.file false (replaceChar '\\' ['/'] p) = .ok u0 := by
      cases hv : URI.file false (replaceChar '\\' ['/'] p) with
      | error e =>
        rw [hv] at hcore
        exact Except.noConfusion
          (hcore : (Except.error e : Except UriError (List Char)) =
            Except.ok (replaceChar '\\' ['/'] p))
      | ok v => exact ⟨v, rfl⟩
    rw [hu0] at hcore
    have hval : uriToFsPath false u0 false = replaceChar '\\' ['/'] p :=
      Except.ok.inj
        (hcore : (Except.ok (uriToFsPath false u0 false) : Except UriError (List Char)) =
          Except.ok (replaceChar '\\' ['/'] p))
    have hfile : URI.file true p = .ok u0 := by
      rw [file_win_eq]
      show URI.file false (replaceChar '\\' ['/'] p) = .ok u0
      exact hu0
    rw [hfile]
    show Except.ok (uriToFsPath true u0 false) = Except.ok (sepNormalize true p)
    rw [fsPath_win_eq]
    show Except.ok (replaceChar '/' ['\\'] (uriToFsPath false u0 false)) =
      Except.ok (sepNormalize true p)
    rw [hval]
    rfl

/-- Witness for the amended C3: the POSIX absolute path `/a/b` and the
Windows drive path `c:\x` both round-trip. -/
theorem c3_fs_path_roundtrip_witness :
    (wfNative false "/a/b".toList ∧
      (URI.file false "/a/b".toList).map (fun u => uriToFsPath false u false) =
        .ok (sepNormalize false "/a/b".toList)) ∧
    (wfNative true "c:\\x".toList ∧
      (URI.file true "c:\\x".toList).map (fun u => uriToFsPath true u false) =
        .ok (sepNormalize true "c:\\x".toList)) := by
  have h1 : wfNative false "/a/b".toList := by
    refine ⟨?_, Or.inl ⟨rfl, fun c hc => ?_⟩⟩
    · show '%' ∉ "/a/b".toList
      decide
    · have hc2 : some 'a' = some c := hc
      cases hc2
      decide
  have h2 : wfNative true "c:\\x".toList := by
    refine ⟨?_, Or.inr (Or.inl ⟨'c', "/x".toList, by decide, by decide⟩)⟩
    show '%' ∉ replaceChar '\\' ['/'] "c:\\x".toList
    decide
  exact ⟨⟨h1, c3_fs_path_roundtrip false "/a/b".toList h1⟩,
    ⟨h2, c3_fs_path_roundtrip true "c:\\x".toList h2⟩⟩

/-! ## C10: error freedom of the path utilities -/

/-- C10 counterexample: `Utils::join_path` CAN return an error on a URI
built by the public constructors.  `URI::new` accepts scheme `s`,
authority `a` and an empty path, but `join_path` of that URI with no
segments normalizes the empty path to `.`, and the revalidation inside the
internal `with` call rejects a relative path alongside a non-empty
authority. -/
theorem c10_counterexample :
    URI.new "s".toList "a".toList [] [] [] = .ok c10URI ∧
    Utils.join_path c10URI [] = .error .invalidAuthorityPath :=
  ⟨rfl, rfl⟩

/-- C10 (amended): for every URI satisfying the constructor invariants,
`Utils::resolve_path` never returns an error (for any list of path
segments) and `Utils::dirname` never returns an error: the derived path
always passes the revalidation inside the internal `with` call.
`Utils::join_path` is excluded, since its error branch is reachable. -/
theorem c10_resolve_dirname_total :
    (∀ (u : URI) (ps : List (List Char)), ConstructedInv u →
      ∃ v, Utils.resolve_path u ps = .ok v) ∧
    (∀ u : URI, ConstructedInv u → ∃ v, Utils.dirname u = .ok v) :=
  ⟨fun _ ps h => resolve_isOk h ps, fun _ h => dirname_isOk h⟩

/-- Witness for the amended C10 at the concrete URI `s://a` (which is
exactly the URI on which `join_path` fails). -/
theorem c10_resolve_dirname_total_witness :
    ConstructedInv c10URI ∧
    (∃ v, Utils.resolve_path c10URI [['x']] = .ok v) ∧
    (∃ v, Utils.dirname c10URI = .ok v) :=
  ⟨by decide, c10_resolve_dirname_total.1 c10URI [['x']] (by decide),
   c10_resolve_dirname_total.2 c10URI (by decide)⟩

/-! ## C1: lemmas -/

theorem takeWhile_append_boundary {α : Type} (P : α → Bool) {s t : List α}
    (hs : ∀ c ∈ s, P c = true) (ht : ∀ c, t.head? = some c → P c = false) :
    (s ++ t).takeWhile P = s ∧ (s ++ t).dropWhile P = t := by
  induction s with
  | nil =>
    simp only [List.nil_append]
    cases t with
    | nil => exact ⟨rfl, rfl⟩
    | cons c t' =>
      have hc := ht c rfl
      simp [List.takeWhile_cons, List.dropWhile_cons, hc]
  | cons c s' ih =>
    have hc := hs c (List.mem_cons_self c s')
    have ih' := ih (fun d hd => hs d (List.mem_cons_of_mem c hd))
    simp [List.takeWhile_cons, List.dropWhile_cons, hc, ih'.1, ih'.2]

theorem replaceChar_id {old : Char} {new s : List Char} (h : old ∉ s) :
    replaceChar old new s = s := by
  induction s with
  | nil => rfl
  | cons c t ih =>
    have hc : c ≠ old := fun hc => h (hc ▸ List.mem_cons_self c t)
    have ht : old ∉ t := fun hm => h (List.mem_cons_of_mem c hm)
    show ((if c = old then new else [c]) ::
      t.map fun d => if d = old then new else [d]).flatten = c :: t
    rw [List.flatten_cons, if_neg hc]
    show c :: replaceChar old new t = c :: t
    rw [ih ht]

theorem encChar_unreserved {ip ia : Bool} {c : Char} (h : isUnreservedFor ip ia c) :
    encChar ip ia c = [c] := by
  simp only [encChar]
  rw [if_pos h]

theorem encodeFast_id {s : List Char} {ip ia : Bool}
    (h : ∀ c ∈ s, isUnreservedFor ip ia c) :
    encodeFast s ip ia = s := by
  induction s with
  | nil => rfl
  | cons c t ih =>
    show (encChar ip ia c :: t.map (encChar ip ia)).flatten = c :: t
    rw [List.flatten_cons, encChar_unreserved (h c (List.mem_cons_self c t))]
    show c :: encodeFast t ip ia = c :: t
    rw [ih (fun d hd => h d (List.mem_cons_of_mem c hd))]

theorem lowerChar_id {c : Char} (h : ¬ isAsciiUpperAlpha c) : lowerChar c = c := by
  unfold lowerChar
  rw [if_neg h]

theorem lowerStr_id {s : List Char} (h : ∀ c ∈ s, ¬ isAsciiUpperAlpha c) :
    lowerStr s = s := by
  induction s with
  | nil => rfl
  | cons c t ih =>
    show lowerChar c :: lowerStr t = c :: t
    rw [lowerChar_id (h c (List.mem_cons_self c t)),
      ih (fun d hd => h d (List.mem_cons_of_mem c hd))]

theorem authLossless_not_upper {c : Char} (h : authLosslessChar c) :
    ¬ isAsciiUpperAlpha c := by
  rcases h with h | h | rfl | rfl | rfl | rfl | rfl
  · intro hu
    obtain ⟨a, b⟩ := h
    obtain ⟨x, y⟩ := hu
    omega
  · intro hu
    obtain ⟨a, b⟩ := h
    obtain ⟨x, y⟩ := hu
    omega
  all_goals decide

theorem authLossless_unreserved {c : Char} (h : authLosslessChar c) :
    isUnreservedFor false true c := by
  rcases h with h | h | rfl | rfl | rfl | rfl | rfl
  · exact Or.inl (Or.inl (Or.inl h))
  · exact Or.inl (Or.inr h)
  · exact Or.inr (Or.inl rfl)
  · exact Or.inr (Or.inr (Or.inl rfl))
  · exact Or.inr (Or.inr (Or.inr (Or.inl rfl)))
  · exact Or.inr (Or.inr (Or.inr (Or.inr (Or.inl rfl))))
  · exact Or.inr (Or.inr (Or.inr (Or.inr (Or.inr (Or.inr ⟨rfl, Or.inr (Or.inr rfl)⟩)))))

theorem pathLossless_unreserved {c : Char} (h : pathLosslessChar c) :
    isUnreservedFor true false c := by
  rcases h with h | rfl | rfl | rfl | rfl | rfl
  · exact Or.inl h
  · exact Or.inr (Or.inl rfl)
  · exact Or.inr (Or.inr (Or.inl rfl))
  · exact Or.inr (Or.inr (Or.inr (Or.inl rfl)))
  · exact Or.inr (Or.inr (Or.inr (Or.inr (Or.inl rfl))))
  · exact Or.inr (Or.inr (Or.inr (Or.inr (Or.inr (Or.inl ⟨rfl, rfl⟩)))))

theorem partLossless_unreserved {c : Char} (h : partLosslessChar c) :
    isUnreservedFor false false c := by
  rcases h with h | rfl | rfl | rfl | rfl
  · exact Or.inl h
  · exact Or.inr (Or.inl rfl)
  · exact Or.inr (Or.inr (Or.inl rfl))
  · exact Or.inr (Or.inr (Or.inr (Or.inl rfl)))
  · exact Or.inr (Or.inr (Or.inr (Or.inr (Or.inl rfl))))

theorem firstIdxOf_eq_none {ch : Char} {s : List Char} (h : ch ∉ s) :
    firstIdxOf ch s = none := by
  induction s with
  | nil => rfl
  | cons c t ih =>
    have hc : c ≠ ch := fun hc => h (hc ▸ List.mem_cons_self c t)
    have ht : ch ∉ t := fun hm => h (List.mem_cons_of_mem c hm)
    show (if c = ch then some 0 else (firstIdxOf ch t).map (· + 1)) = none
    rw [if_neg hc, ih ht]
    rfl

theorem fmtEncoder_path_id {win : Bool} {s : List Char}
    (h : ∀ c ∈ s, pathLosslessChar c) :
    fmtEncoder win false s true false = s := by
  have hu : ∀ c ∈ s, isUnreservedFor true false c :=
    fun c hc => pathLossless_unreserved (h c hc)
  have hbs : '\\' ∉ s := fun hm => absurd (h '\\' hm) (by decide)
  cases win
  · show encodeFast s true false = s
    exact encodeFast_id hu
  · show encodeFast (replaceChar '\\' "%5C".toList s) true false = s
    rw [replaceChar_id hbs]
    exact encodeFast_id hu

theorem fmtEncoder_auth_id {win : Bool} {s : List Char}
    (h : ∀ c ∈ s, isUnreservedFor false true c) :
    fmtEncoder win false s false true = s := by
  cases win <;>
  · show encodeFast s false true = s
    exact encodeFast_id h

theorem fmtEncoder_plain_id {win : Bool} {s : List Char}
    (h : ∀ c ∈ s, isUnreservedFor false false c) :
    fmtEncoder win false s false false = s := by
  cases win <;>
  · show encodeFast s false false = s
    exact encodeFast_id h

theorem authoritySection_id {win : Bool} {a : List Char}
    (h : ∀ c ∈ a, authLosslessChar c) :
    authoritySection win false a = a := by
  have hat : '@' ∉ a := fun hm => absurd (h '@' hm) (by decide)
  have hlow : lowerStr a = a := lowerStr_id (fun c hc => authLossless_not_upper (h c hc))
  simp only [authoritySection, firstIdxOf_eq_none hat, hlow]
  cases hr : rIdxOf ':' a with
  | none =>
    exact fmtEncoder_auth_id (fun c hc => authLossless_unreserved (h c hc))
  | some i =>
    show fmtEncoder win false (List.take i a) false true ++ List.drop i a = a
    rw [fmtEncoder_auth_id
      (fun c hc => authLossless_unreserved (h c (List.mem_of_mem_take hc)))]
    exact List.take_append_drop i a

theorem driveFold_id {p : List Char} (h : ':' ∉ p) : driveFold p = p := by
  unfold driveFold
  split_ifs with h3 h2
  · split
    · rename_i second rest
      exact absurd (by simp : (':' : Char) ∈ '/' :: second :: ':' :: rest) h
    · rfl
  · split
    · rename_i first rest
      exact absurd (by simp : (':' : Char) ∈ first :: ':' :: rest) h
    · rfl
  · rfl

theorem pathSection_id {win : Bool} {p : List Char}
    (h : ∀ c ∈ p, pathLosslessChar c) :
    pathSection win false p = p := by
  unfold pathSection
  rw [driveFold_id (fun hm => absurd (h ':' hm) (by decide))]
  exact fmtEncoder_path_id h

theorem querySection_id {win : Bool} {q : List Char}
    (h : ∀ c ∈ q, partLosslessChar c) :
    querySection win false q = if q = [] then [] else '?' :: q := by
  by_cases hq : q = []
  · rw [if_pos hq]
    subst hq
    rfl
  · rw [if_neg hq]
    show (if q = [] then [] else '?' :: fmtEncoder win false q false false) = '?' :: q
    rw [if_neg hq, fmtEncoder_plain_id (fun c hc => partLossless_unreserved (h c hc))]

theorem fragmentSection_id {f : List Char}
    (h : ∀ c ∈ f, partLosslessChar c) :
    fragmentSection false f = if f = [] then [] else '#' :: f := by
  by_cases hf : f = []
  · rw [if_pos hf]
    subst hf
    rfl
  · rw [if_neg hf]
    show (if f = [] then [] else '#' :: encodeFast f false false) = '#' :: f
    rw [if_neg hf, encodeFast_id (fun c hc => partLossless_unreserved (h c hc))]

theorem asFormatted_lossless {win : Bool} {u : URI}
    (hs : u.scheme ≠ []) (hl : losslessFields u) :
    asFormatted win u false =
      u.scheme ++ ':' ::
        ((if u.authority ≠ [] ∨ u.scheme = "file".toList then "//".toList else []) ++
          (u.authority ++ (u.path ++
            ((if u.query = [] then [] else '?' :: u.query) ++
              (if u.fragment = [] then [] else '#' :: u.fragment))))) := by
  obtain ⟨hla, hlp, hlq, hlf⟩ := hl
  unfold asFormatted
  rw [if_pos hs, querySection_id hlq, fragmentSection_id hlf]
  have hauth : (if u.authority ≠ [] then authoritySection win false u.authority
      else []) = u.authority := by
    split_ifs with ha
    · exact authoritySection_id hla
    · push_neg at ha
      exact ha.symm
  have hpath : (if u.path ≠ [] then pathSection win false u.path else []) = u.path := by
    split_ifs with hp
    · exact pathSection_id hlp
    · push_neg at hp
      exact hp.symm
  rw [hauth, hpath]
  simp [List.append_assoc]

theorem splitScheme_render {s rest : List Char} (hs : s ≠ [])
    (hchars : ∀ c ∈ s, ¬(c = ':' ∨ c = '/' ∨ c = '?' ∨ c = '#')) :
    splitScheme (s ++ ':' :: rest) = (s, rest) := by
  obtain ⟨htake, hdrop⟩ := takeWhile_append_boundary
    (fun c => decide ¬(c = ':' ∨ c = '/' ∨ c = '?' ∨ c = '#'))
    (s := s) (t := ':' :: rest)
    (fun c hc => by simpa using hchars c hc)
    (fun c hc => by
      simp only [List.head?_cons, Option.some.injEq] at hc
      subst hc
      decide)
  simp only [splitScheme, htake]
  rw [show (s ++ ':' :: rest).drop s.length = ':' :: rest from List.drop_left s _]
  show (if s = [] then ([], s ++ ':' :: rest) else (s, rest)) = (s, rest)
  rw [if_neg hs]

theorem splitAuthority_render {a r : List Char}
    (hnd : ∀ c ∈ a, ¬(c = '/' ∨ c = '?' ∨ c = '#'))
    (hr : ∀ c, r.head? = some c → (c = '/' ∨ c = '?' ∨ c = '#')) :
    splitAuthority ('/' :: '/' :: (a ++ r)) = (a, r) := by
  obtain ⟨htake, hdrop⟩ := takeWhile_append_boundary
    (fun c => decide ¬(c = '/' ∨ c = '?' ∨ c = '#'))
    (s := a) (t := r)
    (fun c hc => by simpa using hnd c hc)
    (fun c hc => by rcases hr c hc with h | h | h <;> simp [h])
  show ((a ++ r).takeWhile _, (a ++ r).dropWhile _) = (a, r)
  rw [htake, hdrop]

theorem splitAuthority_default {v : List Char} (h : ¬ startsDD v) :
    splitAuthority v = ([], v) := by
  unfold splitAuthority
  split
  · exact absurd rfl h
  · rfl

theorem render_tail_head {p : List Char} (q' f' : List Char)
    (hp : p = [] ∨ p.head? = some '/')
    (hq : ∀ c, q'.head? = some c → c = '?')
    (hf : ∀ c, f'.head? = some c → c = '#') :
    ∀ c, (p ++ (q' ++ f')).head? = some c → (c = '/' ∨ c = '?' ∨ c = '#') := by
  intro c hc
  rcases hp with rfl | hp
  · rw [List.nil_append] at hc
    cases q' with
    | nil =>
      rw [List.nil_append] at hc
      right; right
      exact hf c hc
    | cons x t =>
      rw [List.cons_append, List.head?_cons] at hc
      injection hc with hc
      right; left
      exact (hc ▸ hq x rfl)
  · have hpne : p ≠ [] := by intro hn; rw [hn] at hp; simp at hp
    rw [List.head?_append_of_ne_nil _ hpne] at hc
    rw [hp] at hc
    injection hc with hc
    left
    exact hc.symm

theorem not_startsDD_render {p : List Char} (q' f' : List Char)
    (hp : ¬ startsDD p)
    (hq : ∀ c, q'.head? = some c → c = '?')
    (hf : ∀ c, f'.head? = some c → c = '#') :
    ¬ startsDD (p ++ (q' ++ f')) := by
  intro hx
  obtain ⟨t, ht⟩ := startsDD_iff.mp hx
  have htail : ∀ c, (q' ++ f').head? = some c → c ≠ '/' := by
    intro c hc
    cases q' with
    | nil =>
      rw [List.nil_append] at hc
      rw [hf c hc]
      decide
    | cons x tq =>
      rw [List.cons_append, List.head?_cons] at hc
      injection hc with hc
      rw [← hc, hq x rfl]
      decide
  cases p with
  | nil =>
    rw [List.nil_append] at ht
    exact htail '/' (by rw [ht]; rfl) rfl
  | cons c1 t1 =>
    cases t1 with
    | nil =>
      rw [List.singleton_append] at ht
      injection ht with h1 h2
      exact htail '/' (by rw [h2]; rfl) rfl
    | cons c2 t2 =>
      rw [List.cons_append, List.cons_append] at ht
      injection ht with h1 h2
      injection h2 with h2 h3
      exact hp (show (c1 :: c2 :: t2).take 2 = ['/', '/'] by rw [h1, h2]; rfl)

theorem parse_assembled {s a p q f : List Char}
    (hs : s ≠ [])
    (hsch : ∀ c ∈ s, ¬(c = ':' ∨ c = '/' ∨ c = '?' ∨ c = '#'))
    (hla : ∀ c ∈ a, authLosslessChar c)
    (hlp : ∀ c ∈ p, pathLosslessChar c)
    (hlq : ∀ c ∈ q, partLosslessChar c)
    (hlf : ∀ c ∈ f, partLosslessChar c)
    (hap : a ≠ [] → p = [] ∨ p.head? = some '/')
    (hpdd : a = [] → ¬ startsDD p)
    (hfile : s = "file".toList → p.head? = some '/') :
    URI.parse (s ++ ':' ::
      ((if a ≠ [] ∨ s = "file".toList then "//".toList else []) ++
        (a ++ (p ++
          ((if q = [] then [] else '?' :: q) ++
            (if f = [] then [] else '#' :: f)))))) =
      URI.new s a p q f := by
  have hq' : ∀ c, (if q = [] then [] else '?' :: q).head? = some c → c = '?' := by
    intro c hc
    by_cases hq0 : q = []
    · rw [if_pos hq0] at hc
      simp at hc
    · rw [if_neg hq0, List.head?_cons] at hc
      injection hc with hc
      exact hc.symm
  have hf' : ∀ c, (if f = [] then [] else '#' :: f).head? = some c → c = '#' := by
    intro c hc
    by_cases hf0 : f = []
    · rw [if_pos hf0] at hc
      simp at hc
    · rw [if_neg hf0, List.head?_cons] at hc
      injection hc with hc
      exact hc.symm
  have hqf : ∀ c, ((if q = [] then [] else '?' :: q) ++
      (if f = [] then [] else '#' :: f)).head? = some c → (c = '?' ∨ c = '#') := by
    intro c hc
    by_cases hq0 : q = []
    · rw [if_pos hq0, List.nil_append] at hc
      exact Or.inr (hf' c hc)
    · rw [if_neg hq0, List.cons_append, List.head?_cons] at hc
      injection hc with hc
      exact Or.inl hc.symm
  have hvne : (s ++ ':' ::
      ((if a ≠ [] ∨ s = "file".toList then "//".toList else []) ++
        (a ++ (p ++
          ((if q = [] then [] else '?' :: q) ++
            (if f = [] then [] else '#' :: f)))))) ≠ [] := by
    cases s with
    | nil => exact absurd rfl hs
    | cons c t => simp
  have hscheme := @splitScheme_render s
    ((if a ≠ [] ∨ s = "file".toList then "//".toList else []) ++
      (a ++ (p ++ ((if q = [] then [] else '?' :: q) ++
        (if f = [] then [] else '#' :: f))))) hs hsch
  have hauth : splitAuthority ((if a ≠ [] ∨ s = "file".toList then "//".toList else []) ++
      (a ++ (p ++ ((if q = [] then [] else '?' :: q) ++
        (if f = [] then [] else '#' :: f))))) =
      (a, p ++ ((if q = [] then [] else '?' :: q) ++
        (if f = [] then [] else '#' :: f))) := by
    by_cases hcase : a ≠ [] ∨ s = "file".toList
    · rw [if_pos hcase]
      show splitAuthority ('/' :: '/' :: (a ++ _)) = _
      refine splitAuthority_render (fun c hc hbad => ?_)
        (render_tail_head _ _ ?_ hq' hf')
      · have hgood := hla c hc
        rcases hbad with rfl | rfl | rfl <;> exact absurd hgood (by decide)
      · rcases hcase with hane | hsf
        · exact hap hane
        · exact Or.inr (hfile hsf)
    · rw [if_neg hcase]
      push_neg at hcase
      obtain ⟨ha0, hsf⟩ := hcase
      subst ha0
      rw [List.nil_append, List.nil_append]
      exact splitAuthority_default (not_startsDD_render _ _ (hpdd rfl) hq' hf')
  have hpathsplit := takeWhile_append_boundary (fun c => decide ¬(c = '?' ∨ c = '#'))
    (s := p) (t := (if q = [] then [] else '?' :: q) ++
      (if f = [] then [] else '#' :: f))
    (fun c hc => by
      have hl := hlp c hc
      simp only [decide_eq_true_eq]
      rintro (rfl | rfl) <;> exact absurd hl (by decide))
    (fun c hc => by rcases hqf c hc with rfl | rfl <;> decide)
  have hpda : percentDecode a = a := percentDecode_of_noPercent
    (fun hm => absurd (hla '%' hm) (by decide))
  have hpdp : percentDecode p = p := percentDecode_of_noPercent
    (fun hm => absurd (hlp '%' hm) (by decide))
  have hpdq : percentDecode q = q := percentDecode_of_noPercent
    (fun hm => absurd (hlq '%' hm) (by decide))
  have hpdf : percentDecode f = f := percentDecode_of_noPercent
    (fun hm => absurd (hlf '%' hm) (by decide))
  simp only [URI.parse, if_neg hvne, hscheme, hauth, hpathsplit.1, hpathsplit.2]
  rw [hpda, hpdp]
  by_cases hq0 : q = []
  · rw [if_pos hq0, List.nil_append]
    by_cases hf0 : f = []
    · rw [if_pos hf0]
      show URI.new s a p (percentDecode []) (percentDecode []) = URI.new s a p q f
      rw [hq0, hf0]
      rfl
    · rw [if_neg hf0]
      show URI.new s a p (percentDecode []) (percentDecode f) = URI.new s a p q f
      rw [hpdf, hq0]
      rfl
  · rw [if_neg hq0]
    have hq2 := takeWhile_append_boundary (fun x => decide (x ≠ '#'))
      (s := q) (t := if f = [] then [] else '#' :: f)
      (fun c hc => by
        have hl := hlq c hc
        simp only [decide_eq_true_eq]
        rintro rfl
        exact absurd hl (by decide))
      (fun c hc => by
        rw [hf' c hc]
        decide)
    rw [List.cons_append]
    by_cases hf0 : f = []
    · rw [if_pos hf0]
      rw [if_pos hf0] at hq2
      show URI.new s a p
        (percentDecode ((q ++ []).takeWhile fun x => decide (x ≠ '#')))
        (percentDecode (match (q ++ []).dropWhile fun x => decide (x ≠ '#') with
          | '#' :: rest => rest
          | _ => [])) = URI.new s a p q f
      rw [hq2.1, hq2.2, hpdq, hf0]
      rfl
    · rw [if_neg hf0]
      rw [if_neg hf0] at hq2
      show URI.new s a p
        (percentDecode ((q ++ '#' :: f).takeWhile fun x => decide (x ≠ '#')))
        (percentDecode (match (q ++ '#' :: f).dropWhile fun x => decide (x ≠ '#') with
          | '#' :: rest => rest
          | _ => [])) = URI.new s a p q f
      rw [hq2.1, hq2.2]
      show URI.new s a p (percentDecode q) (percentDecode f) = URI.new s a p q f
      rw [hpdq, hpdf]

theorem schemePattern_no_delim {s : List Char} (h : schemePattern (lowerStr s)) :
    ∀ c ∈ s, ¬(c = ':' ∨ c = '/' ∨ c = '?' ∨ c = '#') := by
  intro c hc hbad
  have hmem : lowerChar c ∈ lowerStr s := List.mem_map_of_mem lowerChar hc
  have hall : ∀ d ∈ lowerStr s,
      isAsciiAlnum d ∨ d = '+' ∨ d = '.' ∨ d = '-' ∨ isAsciiAlpha d := by
    cases hl : lowerStr s with
    | nil => simp
    | cons d t =>
      rw [hl] at h
      obtain ⟨hd, ht⟩ := h
      intro e he
      rcases List.mem_cons.mp he with rfl | he
      · exact Or.inr (Or.inr (Or.inr (Or.inr hd)))
      · rcases ht e he with h1 | h1 | h1 | h1
        · exact Or.inl h1
        · exact Or.inr (Or.inl h1)
        · exact Or.inr (Or.inr (Or.inl h1))
        · exact Or.inr (Or.inr (Or.inr (Or.inl h1)))
  have hprop := hall (lowerChar c) hmem
  rcases hbad with rfl | rfl | rfl | rfl <;> revert hprop <;> decide

/-- C1: for every URI satisfying the constructor invariants whose fields
contain only characters the full-encoding formatter leaves unchanged
(no upper case, `@` or `%` in the authority; unreserved characters and `/`
in the path; unreserved characters in query and fragment),
`parse(to_string(skip_encoding = false))` returns exactly the original
URI, field by field, on either platform. -/
theorem c1_parse_to_string_roundtrip (win : Bool) (u : URI)
    (hinv : ConstructedInv u) (hl : losslessFields u) :
    URI.parse (asFormatted win u false) = .ok u := by
  obtain ⟨hs, hpat, hap, hdd, hspec⟩ := hinv
  rw [asFormatted_lossless hs hl]
  obtain ⟨hla, hlp, hlq, hlf⟩ := hl
  exact (parse_assembled hs (schemePattern_no_delim hpat) hla hlp hlq hlf hap hdd
    (fun hf => (hspec (Or.inr (Or.inr hf))).2)).trans
    (new_of_inv ⟨hs, hpat, hap, hdd, hspec⟩)

/-- Witness for C1 at the concrete URI `http://example.com/a/b?k#top`. -/
theorem c1_parse_to_string_roundtrip_witness :
    ConstructedInv ⟨"http".toList, "example.com".toList, "/a/b".toList,
        "k".toList, "top".toList⟩ ∧
      losslessFields ⟨"http".toList, "example.com".toList, "/a/b".toList,
        "k".toList, "top".toList⟩ ∧
      URI.parse (asFormatted false ⟨"http".toList, "example.com".toList,
        "/a/b".toList, "k".toList, "top".toList⟩ false) =
        .ok ⟨"http".toList, "example.com".toList, "/a/b".toList,
          "k".toList, "top".toList⟩ :=
  ⟨by decide, by decide,
    c1_parse_to_string_roundtrip false _ (by decide) (by decide)⟩

end VUri
